import Mathlib

/-!
A verification development for the treemap engine in `tree_maps.py`.

Modelling conventions, in source order:

* Python numbers that enter a division are modelled as exact rationals (`ℚ`);
  pixel coordinates and extents are integers (`ℤ`).  Python `int(...)` truncation
  toward zero is `pyInt`.
* A `pandas` data frame is abstracted to the list of values of its value column
  (`List ℚ`); a row count is the length of that list.
* `Category.grids`, the mutable name-to-rectangle dictionary, is modelled by the
  list of `(name, rectangle)` assignments a layout pass performs, in order.
  Each sibling name is assigned at most once per pass, so the association list
  carries the same information as the dictionary.
* `sorted(..., key=k, reverse=True)` and `list.sort(key=k, reverse=True)` are
  stable descending sorts; `sortDescBy` is a stable insertion sort with the same
  specification, hence the same output.
* Functions whose Python original can raise `ZeroDivisionError` (or `KeyError`)
  additionally get an `Option`-valued variant (suffix `?`) that returns `none`
  exactly when the Python original raises; the plain variants use total `ℚ`
  division and agree with the `?` variants whenever those succeed.
-/

/-- Python `int(...)` applied to an exact rational: truncation toward zero. -/
def pyInt (q : ℚ) : ℤ :=
  if 0 ≤ q then ((q.num.toNat / q.den : ℕ) : ℤ) else -(((-q).num.toNat / (-q).den : ℕ) : ℤ)

/-- A value of `Category.grids`: upper-left corner plus extents, all in pixels. -/
structure Rect where
  ulx : ℤ
  uly : ℤ
  width : ℤ
  height : ℤ
  deriving DecidableEq, Repr

/-- The set of integer pixel positions covered by a rectangle (half-open on both axes). -/
def Rect.pts (r : Rect) : Set (ℤ × ℤ) :=
  {p : ℤ × ℤ | r.ulx ≤ p.1 ∧ p.1 < r.ulx + r.width ∧ r.uly ≤ p.2 ∧ p.2 < r.uly + r.height}

/-- Pixel area of a rectangle. -/
def Rect.area (r : Rect) : ℤ := r.width * r.height

/-- The `Category` tree node of `tree_maps.py` (construction-relevant fields).
`supcategory` back references are replaced by passing the parent (or its size)
explicitly to the functions that need it. -/
structure Category where
  name : String
  size : ℚ
  value_name : Option String
  data : List ℚ
  subcategories : List Category
  is_root : Bool
  is_others : Bool

/-- The size computed by `Category.__init__`: number of rows when no value column
is configured, otherwise the sum of the value column. -/
def sizeFromData (value_name : Option String) (data : List ℚ) : ℚ :=
  match value_name with
  | none => (data.length : ℚ)
  | some _ => data.sum

/-- Sum of the sizes of a list of categories. -/
def catsSize (l : List Category) : ℚ := (l.map Category.size).sum

/-- Stable insertion step for a descending sort by `key`. -/
def insertDescBy (key : Category → ℚ) (x : Category) : List Category → List Category
  | [] => [x]
  | y :: ys => if key y ≤ key x then x :: y :: ys else y :: insertDescBy key x ys

/-- Stable descending sort by `key`, the specification met by Python's stable
`sorted(..., key=key, reverse=True)`. -/
def sortDescBy (key : Category → ℚ) : List Category → List Category
  | [] => []
  | x :: xs => insertDescBy key x (sortDescBy key xs)

/-- `Category.subcategories_in_descending_size`. -/
def Category.subcategories_in_descending_size (c : Category) : List Category :=
  sortDescBy Category.size c.subcategories

/-- `Category.proportion_in_supcategory`, with the parent's size passed explicitly. -/
def proportion_in_sup (supSize : ℚ) (c : Category) : ℚ := c.size / supSize

/-- The loop body of `Category.compute_simple_column_grid`: stack the categories
vertically from `ul`, each `width` wide and `int(height * (size / total))` tall. -/
def column_stack (width height : ℤ) (total : ℚ) : ℤ × ℤ → List Category → List (String × Rect)
  | _, [] => []
  | ul, c :: rest =>
    let height_used := pyInt ((height : ℚ) * (c.size / total))
    (c.name, ⟨ul.1, ul.2, width, height_used⟩) ::
      column_stack width height total (ul.1, ul.2 + height_used) rest

/-- `Category.compute_simple_column_grid` (the assignments it performs, in order). -/
def compute_simple_column_grid (supSize : ℚ) (width height : ℤ) (categories : List Category)
    (ul : ℤ × ℤ) : List (String × Rect) :=
  let sorted := sortDescBy (proportion_in_sup supSize) categories
  column_stack width height (catsSize sorted) ul sorted

/-- The loop body of `Category.compute_simple_row_grid`: stack the categories
horizontally from `ul`, each `height` tall and `int(width * (size / total))` wide. -/
def row_stack (width height : ℤ) (total : ℚ) : ℤ × ℤ → List Category → List (String × Rect)
  | _, [] => []
  | ul, c :: rest =>
    let width_used := pyInt ((width : ℚ) * (c.size / total))
    (c.name, ⟨ul.1, ul.2, width_used, height⟩) ::
      row_stack width height total (ul.1 + width_used, ul.2) rest

/-- `Category.compute_simple_row_grid` (defined in the source, never called by
`compute_grid`). -/
def compute_simple_row_grid (supSize : ℚ) (width height : ℤ) (categories : List Category)
    (ul : ℤ × ℤ) : List (String × Rect) :=
  let sorted := sortDescBy (proportion_in_sup supSize) categories
  row_stack width height (catsSize sorted) ul sorted

/-- The group-growing `while` loop of `Category.compute_grid`.  The two branches of
the source run the same loop with the roles of width and height exchanged:
`main` is the split axis extent, `cross` the other extent, `total` the total size
remaining, `c0size` the size of the first category of the group, `g` the group grown
so far, `req` the current `int(main * sum(group sizes) / total)` and `fcx` the current
extent the first category would occupy across the strip.  Returns the final group,
the categories left over, and the final `req`. -/
def grow_group (main cross : ℤ) (total c0size : ℚ) (g : List Category) (req : ℤ) (fcx : ℚ) :
    List Category → List Category × List Category × ℤ
  | [] => (g, [], req)
  | d :: rest =>
    if (req : ℚ) < fcx then
      let g2 := g ++ [d]
      let req2 := pyInt ((main : ℚ) * catsSize g2 / total)
      let fcx2 := (cross : ℚ) * c0size / catsSize g2
      grow_group main cross total c0size g2 req2 fcx2 rest
    else (g, d :: rest, req)

/-- `Category.compute_grid`, recursing on the still-unassigned suffix of the
descending-size sibling list instead of on `current_category_id`.  `fuel` bounds the
recursion depth; any `fuel ≥ length` of the list gives the Python behaviour. -/
def compute_grid_fuel (supSize : ℚ) : ℕ → ℤ → ℤ → ℤ × ℤ → List Category → List (String × Rect)
  | 0, _, _, _, _ => []
  | _ + 1, _, _, _, [] => []
  | _ + 1, width, height, ul, [c] => [(c.name, ⟨ul.1, ul.2, width, height⟩)]
  | fuel + 1, width, height, ul, c :: d :: rest =>
    let total := catsSize (c :: d :: rest)
    if height < width then
      let req0 := pyInt ((width : ℚ) * c.size / total)
      let gr := grow_group width height total c.size [c] req0 ((height : ℚ)) (d :: rest)
      let strip := compute_simple_column_grid supSize gr.2.2 height gr.1 ul
      if gr.2.1.isEmpty then strip
      else strip ++ compute_grid_fuel supSize fuel (width - gr.2.2) height (ul.1 + gr.2.2, ul.2) gr.2.1
    else
      let req0 := pyInt ((height : ℚ) * c.size / total)
      let gr := grow_group height width total c.size [c] req0 ((width : ℚ)) (d :: rest)
      let strip := compute_simple_column_grid supSize width gr.2.2 gr.1 ul
      if gr.2.1.isEmpty then strip
      else strip ++ compute_grid_fuel supSize fuel width (height - gr.2.2) (ul.1, gr.2.2 + ul.2) gr.2.1

/-- `Category.compute_grid` called as in `visualize_main_map`: on the whole sibling
list in descending size order, from the upper-left corner `(0, 0)`. -/
def Category.compute_grid (c : Category) (width height : ℤ) : List (String × Rect) :=
  compute_grid_fuel c.size c.subcategories_in_descending_size.length width height (0, 0)
    c.subcategories_in_descending_size

/-- The symmetric alternative considered by the specification's design notes: identical
to `compute_grid_fuel` except that the height-major branch lays its group out with
`compute_simple_row_grid`.  This definition follows the specification's words, not the
source; it exists only to be compared with `compute_grid_fuel`. -/
def compute_grid_rowvariant_fuel (supSize : ℚ) :
    ℕ → ℤ → ℤ → ℤ × ℤ → List Category → List (String × Rect)
  | 0, _, _, _, _ => []
  | _ + 1, _, _, _, [] => []
  | _ + 1, width, height, ul, [c] => [(c.name, ⟨ul.1, ul.2, width, height⟩)]
  | fuel + 1, width, height, ul, c :: d :: rest =>
    let total := catsSize (c :: d :: rest)
    if height < width then
      let req0 := pyInt ((width : ℚ) * c.size / total)
      let gr := grow_group width height total c.size [c] req0 ((height : ℚ)) (d :: rest)
      let strip := compute_simple_column_grid supSize gr.2.2 height gr.1 ul
      if gr.2.1.isEmpty then strip
      else strip ++
        compute_grid_rowvariant_fuel supSize fuel (width - gr.2.2) height (ul.1 + gr.2.2, ul.2) gr.2.1
    else
      let req0 := pyInt ((height : ℚ) * c.size / total)
      let gr := grow_group height width total c.size [c] req0 ((width : ℚ)) (d :: rest)
      let strip := compute_simple_row_grid supSize width gr.2.2 gr.1 ul
      if gr.2.1.isEmpty then strip
      else strip ++
        compute_grid_rowvariant_fuel supSize fuel width (height - gr.2.2) (ul.1, gr.2.2 + ul.2) gr.2.1

/-- Dictionary lookup in an assignment list (`self.grids[name]`); `none` models a
`KeyError`.  Within one layout pass every sibling name is assigned once, so taking
the first binding agrees with the Python dictionary. -/
def lookupRect (g : List (String × Rect)) (n : String) : Option Rect :=
  (g.find? (fun e => e.1 == n)).map Prod.snd

/-- The `for ... else` auto-cutoff loop at the top of `visualize_main_map`: walk the
siblings in descending size order and return the proportion of the first one whose
assigned rectangle has zero width or zero height, `0` when none degenerates, and
`none` for the `KeyError` case of a name missing from `grids`. -/
def auto_cutoff_loop (supSize : ℚ) (g : List (String × Rect)) : List Category → Option ℚ
  | [] => some 0
  | c :: rest =>
    match lookupRect g c.name with
    | none => none
    | some r =>
      if r.width = 0 ∨ r.height = 0 then some (proportion_in_sup supSize c)
      else auto_cutoff_loop supSize g rest

/-- The auto-detected proportion cutoff of `visualize_main_map` (used when
`configs.proportion_cutoff is None`), over the unmerged grid of this node. -/
def Category.auto_cutoff (c : Category) (width height : ℤ) : Option ℚ :=
  auto_cutoff_loop c.size (c.compute_grid width height) c.subcategories_in_descending_size

/-- The `others_category` synthesized by `visualize_main_map`: name `"Other " ++ plural`,
data the concatenation of the cut categories' data, size recomputed by
`Category.__init__` from that data, flagged `is_others`, with no subcategories. -/
def make_others (value_name : Option String) (plural_group_key : String)
    (cutoff_categories : List Category) : Category :=
  { name := "Other " ++ plural_group_key,
    size := sizeFromData value_name ((cutoff_categories.map Category.data).flatten),
    value_name := value_name,
    data := (cutoff_categories.map Category.data).flatten,
    subcategories := [],
    is_root := false,
    is_others := true }

/-- The cutoff/merge pass of `visualize_main_map` (lines 140-149): partition the
siblings by proportion against the cutoff, sort the kept ones by descending size,
and append one merged "others" category when anything was cut.  `deepcopy` has no
observable effect in this pure model. -/
def Category.merge_pass (c : Category) (proportion_cutoff : ℚ) (plural_group_key : String) :
    List Category :=
  let not_cutoff := c.subcategories.filter
    (fun s => decide (proportion_cutoff < proportion_in_sup c.size s))
  let not_cutoff := sortDescBy Category.size not_cutoff
  let cutoff := c.subcategories.filter
    (fun s => decide (proportion_in_sup c.size s ≤ proportion_cutoff))
  if cutoff.length ≠ 0 then
    not_cutoff ++ [make_others c.value_name plural_group_key cutoff]
  else not_cutoff

/-- The search loop of `StringHelper.largest_fitting_font_size`, specialised to a
configured (non-`None`) maximum font size, which is what every caller in the
repository passes; `fuel` bounds the iteration count, and `max_font_size + 2` of it
reproduces the Python loop exactly.  `text_width`/`text_height` measure the text at
a given font size (`font_func(s).getsize(text)`). -/
def lffs_loop (text_width text_height : ℕ → ℤ) (max_width max_height : ℤ)
    (max_font_size : ℕ) : ℕ → ℕ → ℕ
  | 0, font_size => font_size
  | fuel + 1, font_size =>
    if text_width font_size < max_width ∧ text_height font_size < max_height then
      if max_font_size < font_size then font_size
      else lffs_loop text_width text_height max_width max_height max_font_size fuel (font_size + 1)
    else font_size

/-- `StringHelper.largest_fitting_font_size`. -/
def largest_fitting_font_size (text_width text_height : ℕ → ℤ) (max_width max_height : ℤ)
    (max_font_size min_font_size : ℕ) : ℕ :=
  let final := lffs_loop text_width text_height max_width max_height max_font_size
    (max_font_size + 2) 1
  if min_font_size ≤ final - 1 then final - 1 else 0

/-- The legend positions accepted by `VisConfig.__post_init__`. -/
def legend_positions : List String := ["left", "right", "top", "bottom"]

/-- The palette / `n_categories` / `legend_position` validation of
`VisConfig.__post_init__`; `sns_pastel` abstracts the external
`sns.color_palette("pastel", n)` call.  Returns the palette and category count the
constructor settles on, or the first `ValueError` it raises. -/
def visconfig_check (palette : Option (List String)) (n_categories : Option ℕ)
    (legend_position : String) (sns_pastel : ℕ → List String) :
    Except String (List String × ℕ) := do
  let pn ← match palette, n_categories with
    | none, some n => pure (sns_pastel n, n)
    | none, none =>
      Except.error "Please provide a value for at least one of palette and n_categories"
    | some p, none => pure (p, p.length)
    | some p, some n =>
      if n = p.length then pure (p, n)
      else Except.error "n_categories should equal len(palette)"
  if legend_position ∈ legend_positions then pure pn
  else Except.error "is not a valid position"

/-- The style names accepted by `ColorStyle.__post_init__`. -/
def color_styles : List String := ["palette", "gradient", "uniform"]

/-- The style validation of `ColorStyle.__post_init__`. -/
def colorstyle_check (style : String) : Except String Unit :=
  if style ∈ color_styles then Except.ok () else Except.error "Invalid style"

/-- `VisConfig.top_level_color_style`: constructs `ColorStyle(style=styles[0], ...)`,
so it raises exactly when the head style name is invalid (`none` head models the
`IndexError` of `styles[0]` on an empty list). -/
def top_level_color_style_check (styles : List String) : Except String Unit :=
  match styles with
  | [] => Except.error "IndexError"
  | s :: _ => colorstyle_check s

/-- The value of `configs.styles` after `visualize_main_map` ran lines 161-162 on it:
`if len(configs.styles) <= 1: configs.styles.append("uniform")` mutates the
configuration's list in place. -/
def styles_after_render (styles : List String) : List String :=
  if styles.length ≤ 1 then styles ++ ["uniform"] else styles

/-- The value of `configs.legend_margins` after `Legend.compute_simple_column_grid`
(or `compute_simple_row_grid`) appended its computed between-category margin to it.
In the source `legend_margins = []` is a class-level attribute of the `VisConfig`
dataclass, so this list is shared by all instances. -/
def legend_margins_after (legend_margins : List ℤ) (between_category_margin : ℤ) : List ℤ :=
  legend_margins ++ [between_category_margin]

/-- The chunking comprehension of `Legend.categories_by_rowcol`:
`[categories[i:i+k] for i in range(0, n, k)]`.  `fuel = n` reproduces the
comprehension for every group length `k ≥ 1` (for `k = 0` Python raises). -/
def chunk_loop (k : ℕ) : ℕ → List String → List (List String)
  | 0, _ => []
  | _, [] => []
  | fuel + 1, l => l.take k :: chunk_loop k fuel (l.drop k)

/-- `Legend.categories_by_rowcol` with group length `k = configs.legend_rowcol_length`. -/
def categories_by_rowcol (k : ℕ) (categories : List String) : List (List String) :=
  chunk_loop k categories.length categories

/-- `Legend.n_row_cols`: `ceil(n_categories / legend_rowcol_length)`. -/
def n_row_cols (n k : ℕ) : ℕ := (n + k - 1) / k

/-- Python division returning `none` on a zero divisor (`ZeroDivisionError`). -/
def pydiv (a b : ℚ) : Option ℚ := if b = 0 then none else some (a / b)

/-- `column_stack` with each division checked; `none` exactly when Python raises. -/
def column_stack? (width height : ℤ) (total : ℚ) :
    ℤ × ℤ → List Category → Option (List (String × Rect))
  | _, [] => some []
  | ul, c :: rest => do
    let q ← pydiv c.size total
    let height_used := pyInt ((height : ℚ) * q)
    let tail ← column_stack? width height total (ul.1, ul.2 + height_used) rest
    pure ((c.name, ⟨ul.1, ul.2, width, height_used⟩) :: tail)

/-- Evaluation of the `proportion_in_supcategory` sort keys, which Python's `sort`
computes for every element before comparing; `none` when the parent size is zero and
there is at least one element. -/
def proportion_keys? (supSize : ℚ) : List Category → Option Unit
  | [] => some ()
  | c :: rest => do
    let _ ← pydiv c.size supSize
    proportion_keys? supSize rest

/-- `compute_simple_column_grid` with each division checked. -/
def compute_simple_column_grid? (supSize : ℚ) (width height : ℤ) (categories : List Category)
    (ul : ℤ × ℤ) : Option (List (String × Rect)) := do
  let _ ← proportion_keys? supSize categories
  let sorted := sortDescBy (proportion_in_sup supSize) categories
  column_stack? width height (catsSize sorted) ul sorted

/-- `grow_group` with each division checked. -/
def grow_group? (main cross : ℤ) (total c0size : ℚ) (g : List Category) (req : ℤ) (fcx : ℚ) :
    List Category → Option (List Category × List Category × ℤ)
  | [] => some (g, [], req)
  | d :: rest =>
    if (req : ℚ) < fcx then do
      let g2 := g ++ [d]
      let q ← pydiv ((main : ℚ) * catsSize g2) total
      let f2 ← pydiv ((cross : ℚ) * c0size) (catsSize g2)
      grow_group? main cross total c0size g2 (pyInt q) f2 rest
    else some (g, d :: rest, req)

/-- `compute_grid` with each division checked; `none` exactly when the Python call
raises (`ZeroDivisionError`, or `IndexError` on an empty sibling list). -/
def compute_grid_fuel? (supSize : ℚ) :
    ℕ → ℤ → ℤ → ℤ × ℤ → List Category → Option (List (String × Rect))
  | 0, _, _, _, _ => some []
  | _ + 1, _, _, _, [] => none
  | _ + 1, width, height, ul, [c] => some [(c.name, ⟨ul.1, ul.2, width, height⟩)]
  | fuel + 1, width, height, ul, c :: d :: rest => do
    let total := catsSize (c :: d :: rest)
    if height < width then do
      let q0 ← pydiv ((width : ℚ) * c.size) total
      let gr ← grow_group? width height total c.size [c] (pyInt q0) ((height : ℚ)) (d :: rest)
      let strip ← compute_simple_column_grid? supSize gr.2.2 height gr.1 ul
      if gr.2.1.isEmpty then pure strip
      else do
        let recurse ← compute_grid_fuel? supSize fuel (width - gr.2.2) height
          (ul.1 + gr.2.2, ul.2) gr.2.1
        pure (strip ++ recurse)
    else do
      let q0 ← pydiv ((height : ℚ) * c.size) total
      let gr ← grow_group? height width total c.size [c] (pyInt q0) ((width : ℚ)) (d :: rest)
      let strip ← compute_simple_column_grid? supSize width gr.2.2 gr.1 ul
      if gr.2.1.isEmpty then pure strip
      else do
        let recurse ← compute_grid_fuel? supSize fuel width (height - gr.2.2)
          (ul.1, gr.2.2 + ul.2) gr.2.1
        pure (strip ++ recurse)

/-- `Category.compute_grid` with each division checked. -/
def Category.compute_grid? (c : Category) (width height : ℤ) :
    Option (List (String × Rect)) :=
  compute_grid_fuel? c.size c.subcategories_in_descending_size.length width height (0, 0)
    c.subcategories_in_descending_size

theorem pyInt_eq_floor (q : ℚ) (h : 0 ≤ q) : pyInt q = ⌊q⌋ := by
  rw [pyInt, if_pos h, Rat.floor_def, Int.ofNat_tdiv, Int.toNat_of_nonneg (Rat.num_nonneg.mpr h),
    Int.tdiv_eq_ediv (Rat.num_nonneg.mpr h) (Int.ofNat_nonneg q.den)]

theorem pyInt_cast_le (q : ℚ) (h : 0 ≤ q) : (pyInt q : ℚ) ≤ q := by
  rw [pyInt_eq_floor q h]; exact Int.floor_le q

theorem lt_pyInt_add_one (q : ℚ) (h : 0 ≤ q) : q - 1 < (pyInt q : ℚ) := by
  rw [pyInt_eq_floor q h]; exact Int.sub_one_lt_floor q

theorem pyInt_nonneg (q : ℚ) (h : 0 ≤ q) : 0 ≤ pyInt q := by
  rw [pyInt_eq_floor q h]; exact Int.floor_nonneg.mpr h

theorem pyInt_intCast (n : ℤ) (h : 0 ≤ n) : pyInt (n : ℚ) = n := by
  rw [pyInt_eq_floor _ (by exact_mod_cast h), Int.floor_intCast]

theorem pyInt_le_int (q : ℚ) (n : ℤ) (h : 0 ≤ q) (h2 : q ≤ (n : ℚ)) : pyInt q ≤ n := by
  rw [pyInt_eq_floor q h]
  exact (Int.floor_mono h2).trans_eq (Int.floor_intCast n)

theorem insertDescBy_perm (key : Category → ℚ) (x : Category) :
    ∀ l, (insertDescBy key x l).Perm (x :: l)
  | [] => List.Perm.refl _
  | y :: ys => by
    rw [insertDescBy]
    split
    · exact List.Perm.refl _
    · exact ((insertDescBy_perm key x ys).cons y).trans (List.Perm.swap x y ys)

theorem sortDescBy_perm (key : Category → ℚ) : ∀ l, (sortDescBy key l).Perm l
  | [] => List.Perm.refl _
  | x :: xs => (insertDescBy_perm key x _).trans ((sortDescBy_perm key xs).cons x)

theorem catsSize_sortDescBy (key : Category → ℚ) (l : List Category) :
    catsSize (sortDescBy key l) = catsSize l :=
  ((sortDescBy_perm key l).map Category.size).sum_eq

theorem length_sortDescBy (key : Category → ℚ) (l : List Category) :
    (sortDescBy key l).length = l.length :=
  (sortDescBy_perm key l).length_eq

theorem mem_sortDescBy {key : Category → ℚ} {l : List Category} {c : Category} :
    c ∈ sortDescBy key l ↔ c ∈ l :=
  (sortDescBy_perm key l).mem_iff

theorem catsSize_nil : catsSize [] = 0 := rfl

theorem catsSize_cons (c : Category) (l : List Category) :
    catsSize (c :: l) = c.size + catsSize l := by
  simp [catsSize]

theorem catsSize_append (l1 l2 : List Category) :
    catsSize (l1 ++ l2) = catsSize l1 + catsSize l2 := by
  simp [catsSize]

theorem catsSize_nonneg {l : List Category} (h : ∀ c ∈ l, 0 ≤ c.size) : 0 ≤ catsSize l :=
  List.sum_nonneg (by intro x hx; obtain ⟨c, hc, rfl⟩ := List.mem_map.mp hx; exact h c hc)

theorem catsSize_pos {l : List Category} (h : ∀ c ∈ l, 0 < c.size) (hne : l ≠ []) :
    0 < catsSize l := by
  cases l with
  | nil => exact absurd rfl hne
  | cons c t =>
    rw [catsSize_cons]
    have h1 : 0 < c.size := h c (List.mem_cons_self c t)
    have h2 : 0 ≤ catsSize t := catsSize_nonneg (fun d hd => (h d (List.mem_cons_of_mem c hd)).le)
    linarith

theorem Rect.mem_pts {r : Rect} {p : ℤ × ℤ} :
    p ∈ r.pts ↔ r.ulx ≤ p.1 ∧ p.1 < r.ulx + r.width ∧ r.uly ≤ p.2 ∧ p.2 < r.uly + r.height :=
  Iff.rfl

theorem Rect.pts_mono {r s : Rect} (hx : s.ulx ≤ r.ulx) (hx2 : r.ulx + r.width ≤ s.ulx + s.width)
    (hy : s.uly ≤ r.uly) (hy2 : r.uly + r.height ≤ s.uly + s.height) : r.pts ⊆ s.pts := by
  intro p hp
  rw [Rect.mem_pts] at hp ⊢
  omega

theorem Rect.disjoint_of_le_x {r s : Rect} (h : r.ulx + r.width ≤ s.ulx) :
    Disjoint r.pts s.pts := by
  rw [Set.disjoint_left]
  intro p hp hq
  rw [Rect.mem_pts] at hp hq
  omega

theorem Rect.disjoint_of_le_y {r s : Rect} (h : r.uly + r.height ≤ s.uly) :
    Disjoint r.pts s.pts := by
  rw [Set.disjoint_left]
  intro p hp hq
  rw [Rect.mem_pts] at hp hq
  omega

/-- Total height consumed by `column_stack` over a list of categories. -/
def col_used_height (height : ℤ) (total : ℚ) (l : List Category) : ℤ :=
  (l.map (fun c => pyInt ((height : ℚ) * (c.size / total)))).sum

theorem col_used_height_nil (height : ℤ) (total : ℚ) : col_used_height height total [] = 0 := rfl

theorem col_used_height_cons (height : ℤ) (total : ℚ) (c : Category) (l : List Category) :
    col_used_height height total (c :: l) =
      pyInt ((height : ℚ) * (c.size / total)) + col_used_height height total l := by
  simp [col_used_height]

theorem col_used_height_perm (height : ℤ) (total : ℚ) {l l' : List Category}
    (h : l.Perm l') : col_used_height height total l = col_used_height height total l' :=
  (h.map _).sum_eq

theorem col_used_height_nonneg {height : ℤ} {total : ℚ} {l : List Category}
    (hh : ∀ c ∈ l, 0 ≤ pyInt ((height : ℚ) * (c.size / total))) :
    0 ≤ col_used_height height total l :=
  List.sum_nonneg (by intro x hx; obtain ⟨c, hc, rfl⟩ := List.mem_map.mp hx; exact hh c hc)

theorem stack_heights_nonneg {height : ℤ} {total : ℚ} {l : List Category}
    (hh : 0 ≤ height) (hT : 0 < total) (hs : ∀ c ∈ l, 0 ≤ c.size) :
    ∀ c ∈ l, 0 ≤ pyInt ((height : ℚ) * (c.size / total)) := by
  intro c hc
  exact pyInt_nonneg _ (mul_nonneg (by exact_mod_cast hh) (div_nonneg (hs c hc) hT.le))

theorem col_used_height_cast_le {height : ℤ} {total : ℚ} {l : List Category}
    (hh : 0 ≤ height) (hT : 0 < total) (hs : ∀ c ∈ l, 0 ≤ c.size) :
    ((col_used_height height total l : ℤ) : ℚ) ≤ (height : ℚ) * (catsSize l / total) := by
  induction l with
  | nil => simp [col_used_height_nil, catsSize_nil]
  | cons c rest ih =>
    rw [col_used_height_cons, catsSize_cons, add_div, mul_add]
    push_cast
    have h1 : (pyInt ((height : ℚ) * (c.size / total)) : ℚ) ≤ (height : ℚ) * (c.size / total) :=
      pyInt_cast_le _ (mul_nonneg (by exact_mod_cast hh)
        (div_nonneg (hs c (List.mem_cons_self c rest)) hT.le))
    have h2 := ih (fun d hd => hs d (List.mem_cons_of_mem c hd))
    push_cast at h2
    linarith

theorem col_used_height_le {height : ℤ} {l : List Category}
    (hh : 0 ≤ height) (hT : 0 < catsSize l) (hs : ∀ c ∈ l, 0 ≤ c.size) :
    col_used_height height (catsSize l) l ≤ height := by
  have := @col_used_height_cast_le height (catsSize l) l hh hT hs
  rw [div_self hT.ne', mul_one] at this
  exact_mod_cast this

theorem col_used_height_cast_ge {height : ℤ} {total : ℚ} {l : List Category}
    (hh : 0 ≤ height) (hT : 0 < total) (hs : ∀ c ∈ l, 0 ≤ c.size) :
    (height : ℚ) * (catsSize l / total) - l.length ≤ ((col_used_height height total l : ℤ) : ℚ) := by
  induction l with
  | nil => simp [col_used_height_nil, catsSize_nil]
  | cons c rest ih =>
    rw [col_used_height_cons, catsSize_cons, add_div, mul_add]
    push_cast [List.length_cons]
    have h1 : (height : ℚ) * (c.size / total) - 1 < (pyInt ((height : ℚ) * (c.size / total)) : ℚ) :=
      lt_pyInt_add_one _ (mul_nonneg (by exact_mod_cast hh)
        (div_nonneg (hs c (List.mem_cons_self c rest)) hT.le))
    have h2 := ih (fun d hd => hs d (List.mem_cons_of_mem c hd))
    push_cast at h2
    linarith

theorem col_used_height_ge {height : ℤ} {l : List Category}
    (hh : 0 ≤ height) (hT : 0 < catsSize l) (hs : ∀ c ∈ l, 0 ≤ c.size) :
    height - (l.length : ℤ) ≤ col_used_height height (catsSize l) l := by
  have := @col_used_height_cast_ge height (catsSize l) l hh hT hs
  rw [div_self hT.ne', mul_one] at this
  exact_mod_cast this

theorem column_stack_map_fst (width height : ℤ) (total : ℚ) :
    ∀ (ul : ℤ × ℤ) (l : List Category),
      (column_stack width height total ul l).map Prod.fst = l.map Category.name
  | _, [] => rfl
  | ul, c :: rest => by
    rw [column_stack]
    simpa using column_stack_map_fst width height total _ rest

theorem column_stack_area (width height : ℤ) (total : ℚ) :
    ∀ (ul : ℤ × ℤ) (l : List Category),
      ((column_stack width height total ul l).map (fun e => e.2.area)).sum =
        width * col_used_height height total l
  | _, [] => by simp [column_stack, col_used_height_nil]
  | ul, c :: rest => by
    rw [column_stack, col_used_height_cons]
    simp only [List.map_cons, List.sum_cons]
    rw [column_stack_area width height total _ rest]
    simp only [Rect.area]
    ring

theorem column_stack_bounds {width height : ℤ} {total : ℚ} :
    ∀ {ul : ℤ × ℤ} {l : List Category},
      (∀ c ∈ l, 0 ≤ pyInt ((height : ℚ) * (c.size / total))) →
      ∀ e ∈ column_stack width height total ul l,
        e.2.pts ⊆ Rect.pts ⟨ul.1, ul.2, width, col_used_height height total l⟩ := by
  intro ul l
  induction l generalizing ul with
  | nil => intro _ e he; simp [column_stack] at he
  | cons c rest ih =>
    intro hh e he
    rw [column_stack, List.mem_cons] at he
    have h0 : 0 ≤ pyInt ((height : ℚ) * (c.size / total)) := hh c (List.mem_cons_self c rest)
    have hrest : 0 ≤ col_used_height height total rest :=
      col_used_height_nonneg (fun d hd => hh d (List.mem_cons_of_mem c hd))
    rcases he with rfl | he
    · exact Rect.pts_mono (by simp) (by simp) (by simp)
        (by simp [col_used_height_cons]; omega)
    · refine (ih (fun d hd => hh d (List.mem_cons_of_mem c hd)) e he).trans ?_
      exact Rect.pts_mono (by simp) (by simp) (by simp; omega)
        (by simp [col_used_height_cons]; omega)

theorem column_stack_pairwise {width height : ℤ} {total : ℚ} :
    ∀ {ul : ℤ × ℤ} {l : List Category},
      (∀ c ∈ l, 0 ≤ pyInt ((height : ℚ) * (c.size / total))) →
      (column_stack width height total ul l).Pairwise (fun a b => Disjoint a.2.pts b.2.pts) := by
  intro ul l
  induction l generalizing ul with
  | nil => intro _; simp [column_stack]
  | cons c rest ih =>
    intro hh
    rw [column_stack]
    refine List.Pairwise.cons ?_ (ih (fun d hd => hh d (List.mem_cons_of_mem c hd)))
    intro b hb
    have hsub := column_stack_bounds (fun d hd => hh d (List.mem_cons_of_mem c hd)) b hb
    refine Disjoint.mono_right hsub ?_
    exact Rect.disjoint_of_le_y (by simp)

theorem compute_simple_column_grid_eq (supSize : ℚ) (w h : ℤ) (cats : List Category)
    (ul : ℤ × ℤ) :
    compute_simple_column_grid supSize w h cats ul =
      column_stack w h (catsSize cats) ul (sortDescBy (proportion_in_sup supSize) cats) := by
  simp only [compute_simple_column_grid]
  rw [catsSize_sortDescBy]

theorem compute_simple_column_grid_fst_perm (supSize : ℚ) (w h : ℤ) (cats : List Category)
    (ul : ℤ × ℤ) :
    ((compute_simple_column_grid supSize w h cats ul).map Prod.fst).Perm
      (cats.map Category.name) := by
  rw [compute_simple_column_grid_eq, column_stack_map_fst]
  exact (sortDescBy_perm _ cats).map _

theorem compute_simple_column_grid_bounds {supSize : ℚ} {w h : ℤ} {cats : List Category}
    {ul : ℤ × ℤ} (hh : 0 ≤ h) (hT : 0 < catsSize cats) (hs : ∀ c ∈ cats, 0 ≤ c.size) :
    ∀ e ∈ compute_simple_column_grid supSize w h cats ul,
      e.2.pts ⊆ Rect.pts ⟨ul.1, ul.2, w, col_used_height h (catsSize cats) cats⟩ := by
  intro e he
  rw [compute_simple_column_grid_eq] at he
  have hs' : ∀ c ∈ sortDescBy (proportion_in_sup supSize) cats, 0 ≤ c.size :=
    fun c hc => hs c (mem_sortDescBy.mp hc)
  have hb := column_stack_bounds (stack_heights_nonneg hh hT hs') e he
  rwa [col_used_height_perm h (catsSize cats) (sortDescBy_perm _ cats)] at hb

theorem compute_simple_column_grid_pairwise {supSize : ℚ} {w h : ℤ} {cats : List Category}
    {ul : ℤ × ℤ} (hh : 0 ≤ h) (hT : 0 < catsSize cats) (hs : ∀ c ∈ cats, 0 ≤ c.size) :
    (compute_simple_column_grid supSize w h cats ul).Pairwise
      (fun a b => Disjoint a.2.pts b.2.pts) := by
  rw [compute_simple_column_grid_eq]
  have hs' : ∀ c ∈ sortDescBy (proportion_in_sup supSize) cats, 0 ≤ c.size :=
    fun c hc => hs c (mem_sortDescBy.mp hc)
  exact column_stack_pairwise (stack_heights_nonneg hh hT hs')

theorem compute_simple_column_grid_area (supSize : ℚ) (w h : ℤ) (cats : List Category)
    (ul : ℤ × ℤ) :
    ((compute_simple_column_grid supSize w h cats ul).map (fun e => e.2.area)).sum =
      w * col_used_height h (catsSize cats) cats := by
  rw [compute_simple_column_grid_eq, column_stack_area,
    col_used_height_perm h (catsSize cats) (sortDescBy_perm _ cats)]

theorem grow_group_append (main cross : ℤ) (total c0size : ℚ) :
    ∀ (rest g : List Category) (req : ℤ) (fcx : ℚ),
      (grow_group main cross total c0size g req fcx rest).1 ++
        (grow_group main cross total c0size g req fcx rest).2.1 = g ++ rest := by
  intro rest
  induction rest with
  | nil => intro g req fcx; simp [grow_group]
  | cons d rest ih =>
    intro g req fcx
    rw [grow_group]
    split
    · rw [ih (g ++ [d])]
      simp
    · simp

theorem grow_group_prefix (main cross : ℤ) (total c0size : ℚ) :
    ∀ (rest g : List Category) (req : ℤ) (fcx : ℚ),
      ∃ t, (grow_group main cross total c0size g req fcx rest).1 = g ++ t := by
  intro rest
  induction rest with
  | nil => intro g req fcx; exact ⟨[], by simp [grow_group]⟩
  | cons d rest ih =>
    intro g req fcx
    rw [grow_group]
    split
    · obtain ⟨t, ht⟩ := ih (g ++ [d]) (pyInt ((main : ℚ) * catsSize (g ++ [d]) / total))
        ((cross : ℚ) * c0size / catsSize (g ++ [d]))
      exact ⟨d :: t, by simpa using ht⟩
    · exact ⟨[], by simp⟩

theorem grow_group_req (main cross : ℤ) (total c0size : ℚ) :
    ∀ (rest g : List Category) (req : ℤ) (fcx : ℚ),
      req = pyInt ((main : ℚ) * catsSize g / total) →
      (grow_group main cross total c0size g req fcx rest).2.2 =
        pyInt ((main : ℚ) * catsSize (grow_group main cross total c0size g req fcx rest).1 / total) := by
  intro rest
  induction rest with
  | nil => intro g req fcx h; simpa [grow_group] using h
  | cons d rest ih =>
    intro g req fcx h
    rw [grow_group]
    split
    · exact ih (g ++ [d]) _ _ rfl
    · simpa using h

theorem compute_grid_fuel_width_major {supSize : ℚ} {fuel : ℕ} {W H : ℤ} {ul : ℤ × ℤ}
    {c d : Category} {rest : List Category} (hb : H < W)
    (gr : List Category × List Category × ℤ)
    (hgr : gr = grow_group W H (catsSize (c :: d :: rest)) c.size [c]
      (pyInt ((W : ℚ) * c.size / catsSize (c :: d :: rest))) ((H : ℚ)) (d :: rest)) :
    compute_grid_fuel supSize (fuel + 1) W H ul (c :: d :: rest) =
      if gr.2.1.isEmpty then compute_simple_column_grid supSize gr.2.2 H gr.1 ul
      else compute_simple_column_grid supSize gr.2.2 H gr.1 ul ++
        compute_grid_fuel supSize fuel (W - gr.2.2) H (ul.1 + gr.2.2, ul.2) gr.2.1 := by
  subst hgr
  simp only [compute_grid_fuel]
  rw [if_pos hb]

theorem compute_grid_fuel_height_major {supSize : ℚ} {fuel : ℕ} {W H : ℤ} {ul : ℤ × ℤ}
    {c d : Category} {rest : List Category} (hb : ¬ H < W)
    (gr : List Category × List Category × ℤ)
    (hgr : gr = grow_group H W (catsSize (c :: d :: rest)) c.size [c]
      (pyInt ((H : ℚ) * c.size / catsSize (c :: d :: rest))) ((W : ℚ)) (d :: rest)) :
    compute_grid_fuel supSize (fuel + 1) W H ul (c :: d :: rest) =
      if gr.2.1.isEmpty then compute_simple_column_grid supSize W gr.2.2 gr.1 ul
      else compute_simple_column_grid supSize W gr.2.2 gr.1 ul ++
        compute_grid_fuel supSize fuel W (H - gr.2.2) (ul.1, gr.2.2 + ul.2) gr.2.1 := by
  subst hgr
  simp only [compute_grid_fuel]
  rw [if_neg hb]

theorem compute_grid_fuel_spec (supSize : ℚ) :
    ∀ (fuel : ℕ) (l : List Category) (W H : ℤ) (ul : ℤ × ℤ),
      l ≠ [] → l.length ≤ fuel → (∀ c ∈ l, 0 < c.size) → 0 ≤ W → 0 ≤ H →
      ((compute_grid_fuel supSize fuel W H ul l).map Prod.fst).Perm (l.map Category.name) ∧
      (∀ e ∈ compute_grid_fuel supSize fuel W H ul l, e.2.pts ⊆ Rect.pts ⟨ul.1, ul.2, W, H⟩) ∧
      (compute_grid_fuel supSize fuel W H ul l).Pairwise (fun a b => Disjoint a.2.pts b.2.pts) ∧
      ((compute_grid_fuel supSize fuel W H ul l).map (fun e => e.2.area)).sum ≤ W * H ∧
      W * H - max W H * l.length ≤
        ((compute_grid_fuel supSize fuel W H ul l).map (fun e => e.2.area)).sum := by
  intro fuel
  induction fuel with
  | zero =>
    intro l W H ul hne hlen _ _ _
    exact absurd (List.length_eq_zero.mp (Nat.le_zero.mp hlen)) hne
  | succ fuel ih =>
    intro l W H ul hne hlen hpos hW hH
    have hmax : 0 ≤ max W H := le_trans hW (le_max_left W H)
    rcases l with _ | ⟨c, l'⟩
    · exact absurd rfl hne
    rcases l' with _ | ⟨d, rest⟩
    · -- a single category gets the whole remaining rectangle
      simp only [compute_grid_fuel]
      refine ⟨List.Perm.refl _, ?_, ?_, ?_, ?_⟩
      · intro e he
        simp only [List.mem_singleton] at he
        subst he
        exact subset_rfl
      · exact List.pairwise_singleton _ _
      · simp [Rect.area]
      · simp only [List.map_cons, List.map_nil, List.sum_cons, List.sum_nil, Rect.area,
          List.length_cons, List.length_nil]
        push_cast
        linarith
    · -- at least two categories: group, strip, and recursion
      have hLne : (c :: d :: rest : List Category) ≠ [] := by simp
      have hT : 0 < catsSize (c :: d :: rest) := catsSize_pos hpos hLne
      by_cases hb : H < W
      · -- width-major branch
        set gr := grow_group W H (catsSize (c :: d :: rest)) c.size [c]
          (pyInt ((W : ℚ) * c.size / catsSize (c :: d :: rest))) ((H : ℚ)) (d :: rest) with hgr
        have heq := @compute_grid_fuel_width_major supSize fuel W H ul c d rest hb gr hgr
        have happ : gr.1 ++ gr.2.1 = c :: d :: rest := by
          rw [hgr]
          simpa using grow_group_append W H (catsSize (c :: d :: rest)) c.size (d :: rest) [c] _ _
        obtain ⟨t, hpref⟩ : ∃ t, gr.1 = [c] ++ t := by
          rw [hgr]
          exact grow_group_prefix W H _ c.size (d :: rest) [c] _ _
        have hgne : gr.1 ≠ [] := by rw [hpref]; simp
        have hmemg : ∀ x ∈ gr.1, x ∈ (c :: d :: rest : List Category) := by
          intro x hx; rw [← happ]; exact List.mem_append_left _ hx
        have hmemrem : ∀ x ∈ gr.2.1, x ∈ (c :: d :: rest : List Category) := by
          intro x hx; rw [← happ]; exact List.mem_append_right _ hx
        have hgpos : ∀ x ∈ gr.1, 0 < x.size := fun x hx => hpos x (hmemg x hx)
        have hgnonneg : ∀ x ∈ gr.1, 0 ≤ x.size := fun x hx => (hgpos x hx).le
        have hTg : 0 < catsSize gr.1 := catsSize_pos hgpos hgne
        have hreq : gr.2.2 = pyInt ((W : ℚ) * catsSize gr.1 / catsSize (c :: d :: rest)) := by
          rw [hgr]
          exact grow_group_req W H _ c.size (d :: rest) [c] _ _ (by simp [catsSize])
        have hWq : (0 : ℚ) ≤ (W : ℚ) := by exact_mod_cast hW
        have hfrac0 : 0 ≤ (W : ℚ) * catsSize gr.1 / catsSize (c :: d :: rest) :=
          div_nonneg (mul_nonneg hWq (catsSize_nonneg hgnonneg)) hT.le
        have hreq0 : 0 ≤ gr.2.2 := by rw [hreq]; exact pyInt_nonneg _ hfrac0
        have hSsplit : catsSize gr.1 + catsSize gr.2.1 = catsSize (c :: d :: rest) := by
          rw [← happ, catsSize_append]
        have hremnn : 0 ≤ catsSize gr.2.1 :=
          catsSize_nonneg (fun x hx => (hpos x (hmemrem x hx)).le)
        have hSg_le : catsSize gr.1 ≤ catsSize (c :: d :: rest) := by linarith
        have hfrac_le : (W : ℚ) * catsSize gr.1 / catsSize (c :: d :: rest) ≤ (W : ℚ) := by
          rw [div_le_iff₀ hT]
          exact mul_le_mul_of_nonneg_left hSg_le hWq
        have hreq_le : gr.2.2 ≤ W := by rw [hreq]; exact pyInt_le_int _ W hfrac0 hfrac_le
        have hstrip_names := compute_simple_column_grid_fst_perm supSize gr.2.2 H gr.1 ul
        have hstrip_bounds := @compute_simple_column_grid_bounds supSize gr.2.2 H gr.1 ul
          hH hTg hgnonneg
        have hstrip_pair := @compute_simple_column_grid_pairwise supSize gr.2.2 H gr.1 ul
          hH hTg hgnonneg
        have hstrip_area := compute_simple_column_grid_area supSize gr.2.2 H gr.1 ul
        have hCUH_le : col_used_height H (catsSize gr.1) gr.1 ≤ H :=
          col_used_height_le hH hTg hgnonneg
        have hCUH_ge : H - (gr.1.length : ℤ) ≤ col_used_height H (catsSize gr.1) gr.1 :=
          col_used_height_ge hH hTg hgnonneg
        have hstrip_parent : ∀ e ∈ compute_simple_column_grid supSize gr.2.2 H gr.1 ul,
            e.2.pts ⊆ Rect.pts ⟨ul.1, ul.2, W, H⟩ := by
          intro e he
          refine (hstrip_bounds e he).trans (Rect.pts_mono ?_ ?_ ?_ ?_) <;> simp <;> omega
        by_cases hrem : gr.2.1 = []
        · -- the group absorbed every remaining category
          have hg_all : gr.1 = c :: d :: rest := by rw [hrem] at happ; simpa using happ
          have hreqW : gr.2.2 = W := by
            rw [hreq, hg_all, mul_div_assoc, div_self hT.ne', mul_one]
            exact pyInt_intCast W hW
          have hifeq : compute_grid_fuel supSize (fuel + 1) W H ul (c :: d :: rest) =
              compute_simple_column_grid supSize gr.2.2 H gr.1 ul := by
            rw [heq, hrem]
            simp
          rw [hifeq]
          refine ⟨?_, hstrip_parent, hstrip_pair, ?_, ?_⟩
          · have hmapeq : gr.1.map Category.name = (c :: d :: rest).map Category.name := by
              rw [hg_all]
            exact hstrip_names.trans (hmapeq ▸ List.Perm.refl _)
          · rw [hstrip_area, hreqW]
            exact mul_le_mul_of_nonneg_left hCUH_le hW
          · rw [hstrip_area, hreqW]
            have hlen_eq : (gr.1.length : ℤ) = ((c :: d :: rest).length : ℤ) := by
              rw [hg_all]
            have h1 : W * (H - (gr.1.length : ℤ)) ≤ W * col_used_height H (catsSize gr.1) gr.1 :=
              mul_le_mul_of_nonneg_left hCUH_ge hW
            have hn0 : (0 : ℤ) ≤ (gr.1.length : ℤ) := Int.natCast_nonneg _
            have h3 : W * (gr.1.length : ℤ) ≤ max W H * (gr.1.length : ℤ) :=
              mul_le_mul_of_nonneg_right (le_max_left W H) hn0
            have e1 : W * (H - (gr.1.length : ℤ)) = W * H - W * (gr.1.length : ℤ) := by ring
            rw [← hlen_eq]
            linarith
        · -- recurse on the remaining categories to the right of the strip
          have hempty : gr.2.1.isEmpty = false := by
            rw [List.isEmpty_eq_false]
            exact hrem
          have hifeq : compute_grid_fuel supSize (fuel + 1) W H ul (c :: d :: rest) =
              compute_simple_column_grid supSize gr.2.2 H gr.1 ul ++
                compute_grid_fuel supSize fuel (W - gr.2.2) H (ul.1 + gr.2.2, ul.2) gr.2.1 := by
            rw [heq, hempty]
            simp
          have hrlen : gr.2.1.length ≤ fuel := by
            have hlen2 := congrArg List.length happ
            rw [List.length_append] at hlen2
            have hg1 : 1 ≤ gr.1.length := by rw [hpref]; simp
            simp only [List.length_cons] at hlen2 hlen
            omega
          have hrpos : ∀ x ∈ gr.2.1, 0 < x.size := fun x hx => hpos x (hmemrem x hx)
          have hWr : 0 ≤ W - gr.2.2 := by omega
          obtain ⟨ihn, ihb2, ihp, ihu, ihl⟩ :=
            ih gr.2.1 (W - gr.2.2) H (ul.1 + gr.2.2, ul.2) hrem hrlen hrpos hWr hH
          rw [hifeq]
          refine ⟨?_, ?_, ?_, ?_, ?_⟩
          · rw [List.map_append]
            have hmaps : gr.1.map Category.name ++ gr.2.1.map Category.name =
                (c :: d :: rest).map Category.name := by
              rw [← List.map_append, happ]
            exact (hstrip_names.append ihn).trans (hmaps ▸ List.Perm.refl _)
          · intro e he
            rcases List.mem_append.mp he with he | he
            · exact hstrip_parent e he
            · refine (ihb2 e he).trans (Rect.pts_mono ?_ ?_ ?_ ?_) <;> simp <;> omega
          · rw [List.pairwise_append]
            refine ⟨hstrip_pair, ihp, ?_⟩
            intro a ha b hb2
            have hdis : Disjoint
                (Rect.pts ⟨ul.1, ul.2, gr.2.2, col_used_height H (catsSize gr.1) gr.1⟩)
                (Rect.pts ⟨(ul.1 + gr.2.2, ul.2).1, (ul.1 + gr.2.2, ul.2).2, W - gr.2.2, H⟩) := by
              apply Rect.disjoint_of_le_x
              simp
            exact hdis.mono (hstrip_bounds a ha) (ihb2 b hb2)
          · rw [List.map_append, List.sum_append, hstrip_area]
            have h1 : gr.2.2 * col_used_height H (catsSize gr.1) gr.1 ≤ gr.2.2 * H :=
              mul_le_mul_of_nonneg_left hCUH_le hreq0
            have h3 : gr.2.2 * H + (W - gr.2.2) * H = W * H := by ring
            linarith
          · rw [List.map_append, List.sum_append, hstrip_area]
            have hk0 : (0 : ℤ) ≤ (gr.1.length : ℤ) := Int.natCast_nonneg _
            have hm0 : (0 : ℤ) ≤ (gr.2.1.length : ℤ) := Int.natCast_nonneg _
            have h4 : gr.2.2 * (H - (gr.1.length : ℤ)) ≤
                gr.2.2 * col_used_height H (catsSize gr.1) gr.1 :=
              mul_le_mul_of_nonneg_left hCUH_ge hreq0
            have h6 : max (W - gr.2.2) H ≤ max W H := max_le_max (by omega) le_rfl
            have h7 : max (W - gr.2.2) H * (gr.2.1.length : ℤ) ≤
                max W H * (gr.2.1.length : ℤ) := mul_le_mul_of_nonneg_right h6 hm0
            have h8 : gr.2.2 * (gr.1.length : ℤ) ≤ max W H * (gr.1.length : ℤ) :=
              mul_le_mul_of_nonneg_right (hreq_le.trans (le_max_left W H)) hk0
            have h9 : (gr.1.length : ℤ) + (gr.2.1.length : ℤ) = ((c :: d :: rest).length : ℤ) := by
              have := congrArg List.length happ
              rw [List.length_append] at this
              exact_mod_cast this
            have e1 : gr.2.2 * (H - (gr.1.length : ℤ)) =
                gr.2.2 * H - gr.2.2 * (gr.1.length : ℤ) := by ring
            have e2 : gr.2.2 * H + (W - gr.2.2) * H = W * H := by ring
            have e3 : max W H * (gr.1.length : ℤ) + max W H * (gr.2.1.length : ℤ) =
                max W H * ((c :: d :: rest).length : ℤ) := by rw [← h9]; ring
            linarith
      · -- height-major branch
        set gr := grow_group H W (catsSize (c :: d :: rest)) c.size [c]
          (pyInt ((H : ℚ) * c.size / catsSize (c :: d :: rest))) ((W : ℚ)) (d :: rest) with hgr
        have heq := @compute_grid_fuel_height_major supSize fuel W H ul c d rest hb gr hgr
        have happ : gr.1 ++ gr.2.1 = c :: d :: rest := by
          rw [hgr]
          simpa using grow_group_append H W (catsSize (c :: d :: rest)) c.size (d :: rest) [c] _ _
        obtain ⟨t, hpref⟩ : ∃ t, gr.1 = [c] ++ t := by
          rw [hgr]
          exact grow_group_prefix H W _ c.size (d :: rest) [c] _ _
        have hgne : gr.1 ≠ [] := by rw [hpref]; simp
        have hmemg : ∀ x ∈ gr.1, x ∈ (c :: d :: rest : List Category) := by
          intro x hx; rw [← happ]; exact List.mem_append_left _ hx
        have hmemrem : ∀ x ∈ gr.2.1, x ∈ (c :: d :: rest : List Category) := by
          intro x hx; rw [← happ]; exact List.mem_append_right _ hx
        have hgpos : ∀ x ∈ gr.1, 0 < x.size := fun x hx => hpos x (hmemg x hx)
        have hgnonneg : ∀ x ∈ gr.1, 0 ≤ x.size := fun x hx => (hgpos x hx).le
        have hTg : 0 < catsSize gr.1 := catsSize_pos hgpos hgne
        have hreq : gr.2.2 = pyInt ((H : ℚ) * catsSize gr.1 / catsSize (c :: d :: rest)) := by
          rw [hgr]
          exact grow_group_req H W _ c.size (d :: rest) [c] _ _ (by simp [catsSize])
        have hHq : (0 : ℚ) ≤ (H : ℚ) := by exact_mod_cast hH
        have hfrac0 : 0 ≤ (H : ℚ) * catsSize gr.1 / catsSize (c :: d :: rest) :=
          div_nonneg (mul_nonneg hHq (catsSize_nonneg hgnonneg)) hT.le
        have hreq0 : 0 ≤ gr.2.2 := by rw [hreq]; exact pyInt_nonneg _ hfrac0
        have hSsplit : catsSize gr.1 + catsSize gr.2.1 = catsSize (c :: d :: rest) := by
          rw [← happ, catsSize_append]
        have hremnn : 0 ≤ catsSize gr.2.1 :=
          catsSize_nonneg (fun x hx => (hpos x (hmemrem x hx)).le)
        have hSg_le : catsSize gr.1 ≤ catsSize (c :: d :: rest) := by linarith
        have hfrac_le : (H : ℚ) * catsSize gr.1 / catsSize (c :: d :: rest) ≤ (H : ℚ) := by
          rw [div_le_iff₀ hT]
          exact mul_le_mul_of_nonneg_left hSg_le hHq
        have hreq_le : gr.2.2 ≤ H := by rw [hreq]; exact pyInt_le_int _ H hfrac0 hfrac_le
        have hstrip_names := compute_simple_column_grid_fst_perm supSize W gr.2.2 gr.1 ul
        have hstrip_bounds := @compute_simple_column_grid_bounds supSize W gr.2.2 gr.1 ul
          hreq0 hTg hgnonneg
        have hstrip_pair := @compute_simple_column_grid_pairwise supSize W gr.2.2 gr.1 ul
          hreq0 hTg hgnonneg
        have hstrip_area := compute_simple_column_grid_area supSize W gr.2.2 gr.1 ul
        have hCUH_le : col_used_height gr.2.2 (catsSize gr.1) gr.1 ≤ gr.2.2 :=
          col_used_height_le hreq0 hTg hgnonneg
        have hCUH_ge : gr.2.2 - (gr.1.length : ℤ) ≤ col_used_height gr.2.2 (catsSize gr.1) gr.1 :=
          col_used_height_ge hreq0 hTg hgnonneg
        have hstrip_parent : ∀ e ∈ compute_simple_column_grid supSize W gr.2.2 gr.1 ul,
            e.2.pts ⊆ Rect.pts ⟨ul.1, ul.2, W, H⟩ := by
          intro e he
          refine (hstrip_bounds e he).trans (Rect.pts_mono ?_ ?_ ?_ ?_) <;> simp <;> omega
        by_cases hrem : gr.2.1 = []
        · -- the group absorbed every remaining category
          have hg_all : gr.1 = c :: d :: rest := by rw [hrem] at happ; simpa using happ
          have hreqH : gr.2.2 = H := by
            rw [hreq, hg_all, mul_div_assoc, div_self hT.ne', mul_one]
            exact pyInt_intCast H hH
          have hifeq : compute_grid_fuel supSize (fuel + 1) W H ul (c :: d :: rest) =
              compute_simple_column_grid supSize W gr.2.2 gr.1 ul := by
            rw [heq, hrem]
            simp
          rw [hifeq]
          refine ⟨?_, hstrip_parent, hstrip_pair, ?_, ?_⟩
          · have hmapeq : gr.1.map Category.name = (c :: d :: rest).map Category.name := by
              rw [hg_all]
            exact hstrip_names.trans (hmapeq ▸ List.Perm.refl _)
          · rw [hstrip_area]
            have : col_used_height gr.2.2 (catsSize gr.1) gr.1 ≤ H := hreqH ▸ hCUH_le
            exact mul_le_mul_of_nonneg_left this hW
          · rw [hstrip_area]
            have hlen_eq : (gr.1.length : ℤ) = ((c :: d :: rest).length : ℤ) := by
              rw [hg_all]
            have h1 : W * (gr.2.2 - (gr.1.length : ℤ)) ≤
                W * col_used_height gr.2.2 (catsSize gr.1) gr.1 :=
              mul_le_mul_of_nonneg_left hCUH_ge hW
            have hn0 : (0 : ℤ) ≤ (gr.1.length : ℤ) := Int.natCast_nonneg _
            have h3 : W * (gr.1.length : ℤ) ≤ max W H * (gr.1.length : ℤ) :=
              mul_le_mul_of_nonneg_right (le_max_left W H) hn0
            have e1 : W * (gr.2.2 - (gr.1.length : ℤ)) = W * gr.2.2 - W * (gr.1.length : ℤ) := by
              ring
            rw [← hlen_eq]
            have e2 : W * gr.2.2 = W * H := by rw [hreqH]
            linarith
        · -- recurse on the remaining categories below the strip
          have hempty : gr.2.1.isEmpty = false := by
            rw [List.isEmpty_eq_false]
            exact hrem
          have hifeq : compute_grid_fuel supSize (fuel + 1) W H ul (c :: d :: rest) =
              compute_simple_column_grid supSize W gr.2.2 gr.1 ul ++
                compute_grid_fuel supSize fuel W (H - gr.2.2) (ul.1, gr.2.2 + ul.2) gr.2.1 := by
            rw [heq, hempty]
            simp
          have hrlen : gr.2.1.length ≤ fuel := by
            have hlen2 := congrArg List.length happ
            rw [List.length_append] at hlen2
            have hg1 : 1 ≤ gr.1.length := by rw [hpref]; simp
            simp only [List.length_cons] at hlen2 hlen
            omega
          have hrpos : ∀ x ∈ gr.2.1, 0 < x.size := fun x hx => hpos x (hmemrem x hx)
          have hHr : 0 ≤ H - gr.2.2 := by omega
          obtain ⟨ihn, ihb2, ihp, ihu, ihl⟩ :=
            ih gr.2.1 W (H - gr.2.2) (ul.1, gr.2.2 + ul.2) hrem hrlen hrpos hW hHr
          rw [hifeq]
          refine ⟨?_, ?_, ?_, ?_, ?_⟩
          · rw [List.map_append]
            have hmaps : gr.1.map Category.name ++ gr.2.1.map Category.name =
                (c :: d :: rest).map Category.name := by
              rw [← List.map_append, happ]
            exact (hstrip_names.append ihn).trans (hmaps ▸ List.Perm.refl _)
          · intro e he
            rcases List.mem_append.mp he with he | he
            · exact hstrip_parent e he
            · refine (ihb2 e he).trans (Rect.pts_mono ?_ ?_ ?_ ?_) <;> simp <;> omega
          · rw [List.pairwise_append]
            refine ⟨hstrip_pair, ihp, ?_⟩
            intro a ha b hb2
            have hdis : Disjoint
                (Rect.pts ⟨ul.1, ul.2, W, col_used_height gr.2.2 (catsSize gr.1) gr.1⟩)
                (Rect.pts ⟨(ul.1, gr.2.2 + ul.2).1, (ul.1, gr.2.2 + ul.2).2, W, H - gr.2.2⟩) := by
              apply Rect.disjoint_of_le_y
              simp
              omega
            exact hdis.mono (hstrip_bounds a ha) (ihb2 b hb2)
          · rw [List.map_append, List.sum_append, hstrip_area]
            have h1 : W * col_used_height gr.2.2 (catsSize gr.1) gr.1 ≤ W * gr.2.2 :=
              mul_le_mul_of_nonneg_left hCUH_le hW
            have h3 : W * gr.2.2 + W * (H - gr.2.2) = W * H := by ring
            linarith
          · rw [List.map_append, List.sum_append, hstrip_area]
            have hk0 : (0 : ℤ) ≤ (gr.1.length : ℤ) := Int.natCast_nonneg _
            have hm0 : (0 : ℤ) ≤ (gr.2.1.length : ℤ) := Int.natCast_nonneg _
            have h4 : W * (gr.2.2 - (gr.1.length : ℤ)) ≤
                W * col_used_height gr.2.2 (catsSize gr.1) gr.1 :=
              mul_le_mul_of_nonneg_left hCUH_ge hW
            have h6 : max W (H - gr.2.2) ≤ max W H := max_le_max le_rfl (by omega)
            have h7 : max W (H - gr.2.2) * (gr.2.1.length : ℤ) ≤
                max W H * (gr.2.1.length : ℤ) := mul_le_mul_of_nonneg_right h6 hm0
            have h8 : W * (gr.1.length : ℤ) ≤ max W H * (gr.1.length : ℤ) :=
              mul_le_mul_of_nonneg_right (le_max_left W H) hk0
            have h9 : (gr.1.length : ℤ) + (gr.2.1.length : ℤ) = ((c :: d :: rest).length : ℤ) := by
              have := congrArg List.length happ
              rw [List.length_append] at this
              exact_mod_cast this
            have e1 : W * (gr.2.2 - (gr.1.length : ℤ)) =
                W * gr.2.2 - W * (gr.1.length : ℤ) := by ring
            have e2 : W * gr.2.2 + W * (H - gr.2.2) = W * H := by ring
            have e3 : max W H * (gr.1.length : ℤ) + max W H * (gr.2.1.length : ℤ) =
                max W H * ((c :: d :: rest).length : ℤ) := by rw [← h9]; ring
            linarith
/-- Claim C1: for every node with a non-empty list of children of positive sizes laid
out by `Category.compute_grid` in a `width`-by-`height` rectangle, the assigned child
rectangles are pairwise non-overlapping, lie within the parent rectangle, and their
pixel areas sum to the parent rectangle's area up to a truncation slack bounded by a
constant — `max width height`, fixed by the parent rectangle — times the number of
children. -/
theorem C1_compute_grid_tiles_parent (c : Category) (W H : ℤ)
    (hne : c.subcategories ≠ []) (hpos : ∀ s ∈ c.subcategories, 0 < s.size)
    (hW : 0 ≤ W) (hH : 0 ≤ H) :
    (∀ e ∈ c.compute_grid W H, e.2.pts ⊆ Rect.pts ⟨0, 0, W, H⟩) ∧
    (c.compute_grid W H).Pairwise (fun a b => Disjoint a.2.pts b.2.pts) ∧
    ((c.compute_grid W H).map (fun e => e.2.area)).sum ≤ W * H ∧
    W * H - max W H * (c.subcategories.length : ℤ) ≤
      ((c.compute_grid W H).map (fun e => e.2.area)).sum := by
  have hsne : c.subcategories_in_descending_size ≠ [] := by
    intro h
    have hl := congrArg List.length h
    rw [Category.subcategories_in_descending_size, length_sortDescBy] at hl
    exact hne (List.length_eq_zero.mp hl)
  have hspos : ∀ s ∈ c.subcategories_in_descending_size, 0 < s.size := by
    intro s hs
    rw [Category.subcategories_in_descending_size] at hs
    exact hpos s (mem_sortDescBy.mp hs)
  obtain ⟨_, hb, hp, hu, hl⟩ := compute_grid_fuel_spec c.size
    c.subcategories_in_descending_size.length c.subcategories_in_descending_size W H (0, 0)
    hsne le_rfl hspos hW hH
  refine ⟨hb, hp, hu, ?_⟩
  have hlen : (c.subcategories_in_descending_size.length : ℤ) =
      (c.subcategories.length : ℤ) := by
    rw [Category.subcategories_in_descending_size, length_sortDescBy]
  rw [← hlen]
  exact hl

def c1A : Category := ⟨"a", 50, none, [], [], false, false⟩

def c1B : Category := ⟨"b", 30, none, [], [], false, false⟩

def c1C : Category := ⟨"c", 20, none, [], [], false, false⟩

def c1P : Category := ⟨"p", 100, none, [], [c1A, c1B, c1C], false, false⟩

/-- Witness for C1: the specification's 50/30/20 scenario in a 100 by 60 rectangle. -/
theorem C1_witness :
    (c1P.subcategories ≠ [] ∧ (∀ s ∈ c1P.subcategories, 0 < s.size) ∧
      (0 : ℤ) ≤ 100 ∧ (0 : ℤ) ≤ 60) ∧
    ((∀ e ∈ c1P.compute_grid 100 60, e.2.pts ⊆ Rect.pts ⟨0, 0, 100, 60⟩) ∧
      (c1P.compute_grid 100 60).Pairwise (fun a b => Disjoint a.2.pts b.2.pts) ∧
      ((c1P.compute_grid 100 60).map (fun e => e.2.area)).sum ≤ 100 * 60 ∧
      100 * 60 - max 100 60 * (c1P.subcategories.length : ℤ) ≤
        ((c1P.compute_grid 100 60).map (fun e => e.2.area)).sum) :=
  ⟨⟨by simp [c1P], by with_unfolding_all decide, by decide, by decide⟩,
    C1_compute_grid_tiles_parent c1P 100 60 (by simp [c1P]) (by with_unfolding_all decide)
      (by decide) (by decide)⟩
theorem auto_cutoff_loop_first_degenerate (supSize : ℚ) (g : List (String × Rect)) :
    ∀ (l : List Category) (i : ℕ) (hi : i < l.length),
      (∀ (j : ℕ) (hj : j < l.length), j < i →
        ∃ r, lookupRect g ((l.get ⟨j, hj⟩).name) = some r ∧ r.width ≠ 0 ∧ r.height ≠ 0) →
      (∃ r, lookupRect g ((l.get ⟨i, hi⟩).name) = some r ∧ (r.width = 0 ∨ r.height = 0)) →
      auto_cutoff_loop supSize g l = some (proportion_in_sup supSize (l.get ⟨i, hi⟩)) := by
  intro l
  induction l with
  | nil => intro i hi; simp at hi
  | cons c rest ih =>
    intro i hi hprev hdeg
    cases i with
    | zero =>
      obtain ⟨r, hr, hd⟩ := hdeg
      have hr2 : lookupRect g c.name = some r := by simpa using hr
      simp only [auto_cutoff_loop, hr2]
      rw [if_pos hd]
      simp
    | succ k =>
      obtain ⟨r0, hr0, hw0, hh0⟩ := hprev 0 (by simp) (Nat.succ_pos k)
      have hr02 : lookupRect g c.name = some r0 := by simpa using hr0
      simp only [auto_cutoff_loop, hr02]
      rw [if_neg (by simp [hw0, hh0])]
      have hk : k < rest.length := by simpa using hi
      have hprev2 : ∀ (j : ℕ) (hj : j < rest.length), j < k →
          ∃ r, lookupRect g ((rest.get ⟨j, hj⟩).name) = some r ∧
            r.width ≠ 0 ∧ r.height ≠ 0 := by
        intro j hj hjk
        have := hprev (j + 1) (by simpa using Nat.succ_lt_succ hj) (Nat.succ_lt_succ hjk)
        simpa using this
      have hdeg2 : ∃ r, lookupRect g ((rest.get ⟨k, hk⟩).name) = some r ∧
          (r.width = 0 ∨ r.height = 0) := by
        simpa using hdeg
      have := ih k hk hprev2 hdeg2
      simpa using this

theorem auto_cutoff_loop_all_fit (supSize : ℚ) (g : List (String × Rect)) :
    ∀ (l : List Category),
      (∀ s ∈ l, ∃ r, lookupRect g s.name = some r ∧ r.width ≠ 0 ∧ r.height ≠ 0) →
      auto_cutoff_loop supSize g l = some 0 := by
  intro l
  induction l with
  | nil => intro _; rfl
  | cons c rest ih =>
    intro h
    obtain ⟨r, hr, hw, hh⟩ := h c (List.mem_cons_self c rest)
    simp only [auto_cutoff_loop, hr]
    rw [if_neg (by simp [hw, hh])]
    exact ih (fun s hs => h s (List.mem_cons_of_mem c hs))

/-- Claim C2: with no explicit cutoff configured, the auto-detected threshold of
`visualize_main_map` equals the `proportion_in_supcategory` of the first sibling, in
descending size order, whose rectangle in the unmerged `compute_grid` layout has zero
width or zero height; if no sibling's rectangle degenerates the threshold is exactly
zero and nothing is merged (the cutoff partition is empty and the merge pass keeps
all siblings). -/
theorem C2_auto_cutoff_threshold (c : Category) (W H : ℤ)
    (hpos : ∀ s ∈ c.subcategories, 0 < s.size) (hsup : 0 < c.size) :
    (∀ (i : ℕ) (hi : i < c.subcategories_in_descending_size.length),
      (∀ (j : ℕ) (hj : j < c.subcategories_in_descending_size.length), j < i →
        ∃ r, lookupRect (c.compute_grid W H)
            ((c.subcategories_in_descending_size.get ⟨j, hj⟩).name) = some r ∧
          r.width ≠ 0 ∧ r.height ≠ 0) →
      (∃ r, lookupRect (c.compute_grid W H)
          ((c.subcategories_in_descending_size.get ⟨i, hi⟩).name) = some r ∧
        (r.width = 0 ∨ r.height = 0)) →
      c.auto_cutoff W H =
        some (proportion_in_sup c.size (c.subcategories_in_descending_size.get ⟨i, hi⟩))) ∧
    ((∀ s ∈ c.subcategories, ∃ r, lookupRect (c.compute_grid W H) s.name = some r ∧
        r.width ≠ 0 ∧ r.height ≠ 0) →
      c.auto_cutoff W H = some 0 ∧
      c.subcategories.filter (fun s => decide (proportion_in_sup c.size s ≤ 0)) = [] ∧
      ∀ plural, (c.merge_pass 0 plural).Perm c.subcategories) := by
  constructor
  · intro i hi hprev hdeg
    exact auto_cutoff_loop_first_degenerate c.size (c.compute_grid W H)
      c.subcategories_in_descending_size i hi hprev hdeg
  · intro hall
    have hall2 : ∀ s ∈ c.subcategories_in_descending_size,
        ∃ r, lookupRect (c.compute_grid W H) s.name = some r ∧
          r.width ≠ 0 ∧ r.height ≠ 0 := by
      intro s hs
      rw [Category.subcategories_in_descending_size] at hs
      exact hall s (mem_sortDescBy.mp hs)
    have hzero : c.auto_cutoff W H = some 0 :=
      auto_cutoff_loop_all_fit c.size (c.compute_grid W H)
        c.subcategories_in_descending_size hall2
    have hfilter : c.subcategories.filter
        (fun s => decide (proportion_in_sup c.size s ≤ 0)) = [] := by
      rw [List.filter_eq_nil_iff]
      intro s hs
      have : 0 < proportion_in_sup c.size s := div_pos (hpos s hs) hsup
      simp only [decide_eq_true_eq]
      push_neg
      exact this
    refine ⟨hzero, hfilter, ?_⟩
    intro plural
    simp only [Category.merge_pass, hfilter, List.length_nil]
    rw [if_neg (by simp)]
    have hkeep : c.subcategories.filter
        (fun s => decide ((0 : ℚ) < proportion_in_sup c.size s)) = c.subcategories := by
      rw [List.filter_eq_self]
      intro s hs
      exact decide_eq_true (div_pos (hpos s hs) hsup)
    rw [hkeep]
    exact sortDescBy_perm _ _

def c2A : Category := ⟨"a", 999, none, [], [], false, false⟩

def c2B : Category := ⟨"b", 1, none, [], [], false, false⟩

def c2P : Category := ⟨"p", 1000, none, [], [c2A, c2B], false, false⟩

/-- Witness for C2: with sizes 999 and 1 in a 10 by 10 square the second sibling's
rectangle degenerates to height zero, so the auto-detected cutoff is its proportion
of the parent. -/
theorem C2_witness :
    ((∀ s ∈ c2P.subcategories, 0 < s.size) ∧ (0 : ℚ) < c2P.size) ∧
    c2P.auto_cutoff 10 10 =
      some (proportion_in_sup c2P.size
        (c2P.subcategories_in_descending_size.get
          ⟨1, by with_unfolding_all decide⟩)) :=
  ⟨⟨by with_unfolding_all decide, by decide⟩,
    (C2_auto_cutoff_threshold c2P 10 10 (by with_unfolding_all decide) (by decide)).1 1
      (by with_unfolding_all decide)
      (by
        intro j hj hj1
        have hj0 : j = 0 := by omega
        subst hj0
        refine ⟨⟨0, 0, 10, 9⟩, ?_, by decide, by decide⟩
        have heq : c2P.subcategories_in_descending_size.get ⟨0, hj⟩ =
            c2P.subcategories_in_descending_size.get ⟨0, by with_unfolding_all decide⟩ := rfl
        rw [heq]
        with_unfolding_all decide)
      ⟨⟨0, 9, 10, 0⟩, by with_unfolding_all decide, by decide⟩⟩
theorem sizeFromData_flatten (value_name : Option String) :
    ∀ ds : List (List ℚ),
      sizeFromData value_name ds.flatten = (ds.map (sizeFromData value_name)).sum := by
  intro ds
  induction ds with
  | nil => cases value_name <;> simp [sizeFromData]
  | cons d ds ih =>
    cases value_name with
    | none =>
      simp only [sizeFromData, List.flatten_cons, List.length_append, List.map_cons,
        List.sum_cons] at ih ⊢
      push_cast at ih ⊢
      linarith
    | some v =>
      simp only [sizeFromData, List.flatten_cons, List.sum_append, List.map_cons,
        List.sum_cons] at ih ⊢
      rw [ih]

theorem make_others_size (value_name : Option String) (plural : String)
    (cut : List Category) (h : ∀ s ∈ cut, s.size = sizeFromData value_name s.data) :
    (make_others value_name plural cut).size = catsSize cut := by
  simp only [make_others, sizeFromData_flatten, List.map_map]
  unfold catsSize
  congr 1
  apply List.map_congr_left
  intro s hs
  exact (h s hs).symm

/-- Claim C3: given a cutoff threshold `t`, the merge pass of `visualize_main_map`
keeps exactly the siblings whose proportion of the parent is strictly greater than
`t` and cuts exactly those with proportion at most `t`; when the cut set is non-empty
exactly one synthetic category flagged `is_others` and with no children is appended,
and its size (recomputed by the `Category` constructor from the concatenated data)
equals the sum of the sizes of the cut categories. -/
theorem C3_merge_pass_partition (c : Category) (t : ℚ) (plural : String)
    (hwf : ∀ s ∈ c.subcategories, s.size = sizeFromData c.value_name s.data)
    (hno : ∀ s ∈ c.subcategories, s.is_others = false) :
    (c.subcategories.filter (fun s => decide (proportion_in_sup c.size s ≤ t)) = [] →
      (c.merge_pass t plural).Perm
        (c.subcategories.filter (fun s => decide (t < proportion_in_sup c.size s)))) ∧
    (c.subcategories.filter (fun s => decide (proportion_in_sup c.size s ≤ t)) ≠ [] →
      c.merge_pass t plural =
        sortDescBy Category.size
          (c.subcategories.filter (fun s => decide (t < proportion_in_sup c.size s))) ++
        [make_others c.value_name plural
          (c.subcategories.filter (fun s => decide (proportion_in_sup c.size s ≤ t)))] ∧
      (make_others c.value_name plural
        (c.subcategories.filter
          (fun s => decide (proportion_in_sup c.size s ≤ t)))).is_others = true ∧
      (make_others c.value_name plural
        (c.subcategories.filter
          (fun s => decide (proportion_in_sup c.size s ≤ t)))).subcategories = [] ∧
      (make_others c.value_name plural
        (c.subcategories.filter
          (fun s => decide (proportion_in_sup c.size s ≤ t)))).size =
        catsSize (c.subcategories.filter (fun s => decide (proportion_in_sup c.size s ≤ t))) ∧
      ((c.merge_pass t plural).filter (fun s => s.is_others)).length = 1) := by
  constructor
  · intro hcut
    simp only [Category.merge_pass, hcut, List.length_nil]
    rw [if_neg (by simp)]
    exact sortDescBy_perm _ _
  · intro hcut
    have heq : c.merge_pass t plural =
        sortDescBy Category.size
          (c.subcategories.filter (fun s => decide (t < proportion_in_sup c.size s))) ++
        [make_others c.value_name plural
          (c.subcategories.filter (fun s => decide (proportion_in_sup c.size s ≤ t)))] := by
      simp only [Category.merge_pass]
      rw [if_pos]
      rwa [ne_eq, List.length_eq_zero]
    refine ⟨heq, rfl, rfl, ?_, ?_⟩
    · apply make_others_size
      intro s hs
      exact hwf s (List.mem_filter.mp hs).1
    · rw [heq, List.filter_append]
      have h1 : (sortDescBy Category.size
          (c.subcategories.filter
            (fun s => decide (t < proportion_in_sup c.size s)))).filter
          (fun s => s.is_others) = [] := by
        rw [List.filter_eq_nil_iff]
        intro s hs
        have hs2 : s ∈ c.subcategories :=
          (List.mem_filter.mp (mem_sortDescBy.mp hs)).1
        simp [hno s hs2]
      have h2 : ([make_others c.value_name plural
          (c.subcategories.filter
            (fun s => decide (proportion_in_sup c.size s ≤ t)))]).filter
          (fun s => s.is_others) =
          [make_others c.value_name plural
            (c.subcategories.filter (fun s => decide (proportion_in_sup c.size s ≤ t)))] := by
        simp [make_others]
      rw [h1, h2]
      simp

def c3A : Category := ⟨"a", 3, none, [0, 0, 0], [], false, false⟩

def c3B : Category := ⟨"b", 1, none, [0], [], false, false⟩

def c3P : Category := ⟨"p", 4, none, [0, 0, 0, 0], [c3A, c3B], false, false⟩

/-- Witness for C3: with row-count sizes 3 and 1 under a parent of size 4 and cutoff
one half, the 1-sized sibling is cut and replaced by an `is_others` aggregate of its
data. -/
theorem C3_witness :
    ((∀ s ∈ c3P.subcategories, s.size = sizeFromData c3P.value_name s.data) ∧
      (∀ s ∈ c3P.subcategories, s.is_others = false)) ∧
    (c3P.merge_pass (1 / 2) "things" =
      sortDescBy Category.size
        (c3P.subcategories.filter
          (fun s => decide ((1 / 2 : ℚ) < proportion_in_sup c3P.size s))) ++
      [make_others c3P.value_name "things"
        (c3P.subcategories.filter
          (fun s => decide (proportion_in_sup c3P.size s ≤ (1 / 2 : ℚ))))] ∧
    (make_others c3P.value_name "things"
      (c3P.subcategories.filter
        (fun s => decide (proportion_in_sup c3P.size s ≤ (1 / 2 : ℚ))))).is_others = true ∧
    (make_others c3P.value_name "things"
      (c3P.subcategories.filter
        (fun s => decide (proportion_in_sup c3P.size s ≤ (1 / 2 : ℚ))))).subcategories = [] ∧
    (make_others c3P.value_name "things"
      (c3P.subcategories.filter
        (fun s => decide (proportion_in_sup c3P.size s ≤ (1 / 2 : ℚ))))).size =
      catsSize (c3P.subcategories.filter
        (fun s => decide (proportion_in_sup c3P.size s ≤ (1 / 2 : ℚ)))) ∧
    ((c3P.merge_pass (1 / 2) "things").filter (fun s => s.is_others)).length = 1) :=
  ⟨⟨by with_unfolding_all decide, by with_unfolding_all decide⟩,
    (C3_merge_pass_partition c3P (1 / 2) "things" (by with_unfolding_all decide)
      (by with_unfolding_all decide)).2
      (by
        intro h
        have hlen := congrArg List.length h
        revert hlen
        with_unfolding_all decide)⟩
theorem lffs_loop_spec (text_width text_height : ℕ → ℤ) (max_width max_height : ℤ)
    (max_font_size : ℕ) :
    ∀ (fuel font_size : ℕ), 1 ≤ font_size → font_size ≤ max_font_size + 1 →
      max_font_size + 2 ≤ fuel + font_size →
      (∀ k, 1 ≤ k → k < font_size → text_width k < max_width ∧ text_height k < max_height) →
      font_size ≤
        lffs_loop text_width text_height max_width max_height max_font_size fuel font_size ∧
      lffs_loop text_width text_height max_width max_height max_font_size fuel font_size ≤
        max_font_size + 1 ∧
      (∀ k, 1 ≤ k →
        k < lffs_loop text_width text_height max_width max_height max_font_size fuel font_size →
        text_width k < max_width ∧ text_height k < max_height) ∧
      (lffs_loop text_width text_height max_width max_height max_font_size fuel font_size ≤
          max_font_size →
        ¬(text_width (lffs_loop text_width text_height max_width max_height max_font_size
              fuel font_size) < max_width ∧
          text_height (lffs_loop text_width text_height max_width max_height max_font_size
              fuel font_size) < max_height)) := by
  intro fuel
  induction fuel with
  | zero =>
    intro fs h1 h2 h3 _
    exact ((by omega : False)).elim
  | succ fuel ih =>
    intro fs h1 h2 h3 hpre
    rw [lffs_loop]
    by_cases hfit : text_width fs < max_width ∧ text_height fs < max_height
    · rw [if_pos hfit]
      by_cases hcap : max_font_size < fs
      · rw [if_pos hcap]
        exact ⟨le_refl fs, h2, hpre, fun hle => ((by omega : False)).elim⟩
      · rw [if_neg hcap]
        have hrec := ih (fs + 1) (by omega) (by omega) (by omega) (fun k hk1 hk2 => by
          rcases Nat.lt_succ_iff_lt_or_eq.mp hk2 with h | h
          · exact hpre k hk1 h
          · subst h; exact hfit)
        exact ⟨le_trans (Nat.le_succ fs) hrec.1, hrec.2.1, hrec.2.2.1, hrec.2.2.2⟩
    · rw [if_neg hfit]
      exact ⟨le_refl fs, h2, hpre, fun _ => hfit⟩

/-- Claim C5: `largest_fitting_font_size` returns the largest font size, found by
incrementing from 1, at which every size from 1 up keeps the measured width strictly
under `max_width` and the measured height strictly under `max_height`, capped at the
configured maximum font size; whenever that size is below the configured minimum the
function returns 0, and it never returns a value strictly between 0 and the minimum. -/
theorem C5_largest_fitting_font_size_spec (text_width text_height : ℕ → ℤ)
    (max_width max_height : ℤ) (max_font_size min_font_size : ℕ) :
    ∃ L : ℕ, L ≤ max_font_size ∧
      (∀ k, 1 ≤ k → k ≤ L → text_width k < max_width ∧ text_height k < max_height) ∧
      (L < max_font_size →
        ¬(text_width (L + 1) < max_width ∧ text_height (L + 1) < max_height)) ∧
      largest_fitting_font_size text_width text_height max_width max_height max_font_size
        min_font_size = (if min_font_size ≤ L then L else 0) ∧
      (largest_fitting_font_size text_width text_height max_width max_height max_font_size
          min_font_size = 0 ∨
        min_font_size ≤ largest_fitting_font_size text_width text_height max_width max_height
          max_font_size min_font_size) := by
  obtain ⟨h1, h2, h3, h4⟩ := lffs_loop_spec text_width text_height max_width max_height
    max_font_size (max_font_size + 2) 1 le_rfl (by omega) (by omega)
    (fun k hk1 hk2 => absurd hk2 (by omega))
  set r := lffs_loop text_width text_height max_width max_height max_font_size
    (max_font_size + 2) 1 with hr
  have heq : largest_fitting_font_size text_width text_height max_width max_height
      max_font_size min_font_size = if min_font_size ≤ r - 1 then r - 1 else 0 := by
    simp only [largest_fitting_font_size]
  refine ⟨r - 1, by omega, ?_, ?_, heq, ?_⟩
  · intro k hk1 hk2
    exact h3 k hk1 (by omega)
  · intro hL
    have hsub : r - 1 + 1 = r := by omega
    rw [hsub]
    exact h4 (by omega)
  · rw [heq]
    by_cases hmin : min_font_size ≤ r - 1
    · rw [if_pos hmin]
      exact Or.inr hmin
    · rw [if_neg hmin]
      exact Or.inl rfl

/-- Claim C6: for the same text and the same measurement functions, a box that
strictly contains another in both dimensions receives a fitting font size at least
as large. -/
theorem C6_font_size_monotone (text_width text_height : ℕ → ℤ) (w1 h1 w2 h2 : ℤ)
    (max_font_size min_font_size : ℕ) (hw : w1 < w2) (hh : h1 < h2) :
    largest_fitting_font_size text_width text_height w1 h1 max_font_size min_font_size ≤
      largest_fitting_font_size text_width text_height w2 h2 max_font_size min_font_size := by
  obtain ⟨a1, a2, a3, a4⟩ := lffs_loop_spec text_width text_height w1 h1 max_font_size
    (max_font_size + 2) 1 le_rfl (by omega) (by omega)
    (fun k hk1 hk2 => absurd hk2 (by omega))
  obtain ⟨b1, b2, b3, b4⟩ := lffs_loop_spec text_width text_height w2 h2 max_font_size
    (max_font_size + 2) 1 le_rfl (by omega) (by omega)
    (fun k hk1 hk2 => absurd hk2 (by omega))
  set r1 := lffs_loop text_width text_height w1 h1 max_font_size (max_font_size + 2) 1
    with hr1
  set r2 := lffs_loop text_width text_height w2 h2 max_font_size (max_font_size + 2) 1
    with hr2
  have hr12 : r1 ≤ r2 := by
    by_contra hlt
    push_neg at hlt
    have hfit1 : text_width r2 < w1 ∧ text_height r2 < h1 := a3 r2 b1 hlt
    have hfit2 : text_width r2 < w2 ∧ text_height r2 < h2 :=
      ⟨lt_trans hfit1.1 hw, lt_trans hfit1.2 hh⟩
    exact b4 (by omega) hfit2
  simp only [largest_fitting_font_size]
  rw [← hr1, ← hr2]
  split_ifs <;> omega
/-- Witness for C6: linear measurements in a 3 by 4 box versus a strictly larger
5 by 6 box. -/
theorem C6_witness :
    ((3 : ℤ) < 5 ∧ (4 : ℤ) < 6) ∧
    largest_fitting_font_size (fun k => (k : ℤ)) (fun k => (k : ℤ)) 3 4 10 2 ≤
      largest_fitting_font_size (fun k => (k : ℤ)) (fun k => (k : ℤ)) 5 6 10 2 :=
  ⟨⟨by decide, by decide⟩,
    C6_font_size_monotone (fun k => (k : ℤ)) (fun k => (k : ℤ)) 3 4 5 6 10 2
      (by decide) (by decide)⟩
/-- Claim C7: each configuration error is raised when the corresponding
configuration object is constructed: `VisConfig.__post_init__` fails exactly on a
missing palette and category-count pair, a present but mismatched pair, or an
invalid legend position, and `ColorStyle.__post_init__` (reached through
`top_level_color_style` when the per-depth style is consumed) fails exactly on an
invalid style name. -/
theorem C7_config_errors_at_construction (palette : Option (List String))
    (n_categories : Option ℕ) (legend_position : String) (sns_pastel : ℕ → List String)
    (style : String) (styles : List String) :
    ((visconfig_check palette n_categories legend_position sns_pastel).isOk = true ↔
      ¬(palette = none ∧ n_categories = none) ∧
      (∀ p n, palette = some p → n_categories = some n → n = p.length) ∧
      legend_position ∈ legend_positions) ∧
    ((colorstyle_check style).isOk = true ↔ style ∈ color_styles) ∧
    ((top_level_color_style_check styles).isOk = true ↔
      ∃ s rest, styles = s :: rest ∧ s ∈ color_styles) := by
  refine ⟨?_, ?_, ?_⟩
  · by_cases hpos : legend_position ∈ legend_positions
    · rcases palette with _ | p <;> rcases n_categories with _ | n
      · simp [visconfig_check, hpos, Except.isOk, Except.toBool, Except.instMonad, Except.bind, pure, Except.pure]
      · simp [visconfig_check, hpos, Except.isOk, Except.toBool, Except.instMonad, Except.bind, pure, Except.pure]
      · simp [visconfig_check, hpos, Except.isOk, Except.toBool, Except.instMonad, Except.bind, pure, Except.pure]
      · by_cases hn : n = p.length
        · simp [visconfig_check, hpos, hn, Except.isOk, Except.toBool, Except.instMonad, Except.bind, pure, Except.pure]
        · simp [visconfig_check, hpos, hn, Except.isOk, Except.toBool, Except.instMonad, Except.bind, pure, Except.pure]
    · rcases palette with _ | p <;> rcases n_categories with _ | n
      · simp [visconfig_check, hpos, Except.isOk, Except.toBool, Except.instMonad, Except.bind, pure, Except.pure]
      · simp [visconfig_check, hpos, Except.isOk, Except.toBool, Except.instMonad, Except.bind, pure, Except.pure]
      · simp [visconfig_check, hpos, Except.isOk, Except.toBool, Except.instMonad, Except.bind, pure, Except.pure]
      · by_cases hn : n = p.length
        · simp [visconfig_check, hpos, hn, Except.isOk, Except.toBool, Except.instMonad, Except.bind, pure, Except.pure]
        · simp [visconfig_check, hpos, hn, Except.isOk, Except.toBool, Except.instMonad, Except.bind, pure, Except.pure]
  · by_cases hs : style ∈ color_styles
    · simp [colorstyle_check, hs, Except.isOk, Except.toBool, Except.instMonad, Except.bind, pure, Except.pure]
    · simp [colorstyle_check, hs, Except.isOk, Except.toBool, Except.instMonad, Except.bind, pure, Except.pure]
  · rcases styles with _ | ⟨s, rest⟩
    · simp [top_level_color_style_check, Except.isOk, Except.toBool, Except.instMonad, Except.bind, pure, Except.pure]
    · by_cases hs : s ∈ color_styles
      · simp [top_level_color_style_check, colorstyle_check, hs, Except.isOk, Except.toBool, Except.instMonad, Except.bind, pure, Except.pure]
      · simp [top_level_color_style_check, colorstyle_check, hs, Except.isOk, Except.toBool, Except.instMonad, Except.bind, pure, Except.pure]
/-- Claim C8 is violated by the code: lines 161-162 of `visualize_main_map` append
`"uniform"` to `configs.styles` in place whenever the list has at most one entry, so
after the call the `styles` field of the very `VisConfig` that was passed in has
changed; likewise the legend layout appends each computed margin to
`legend_margins`, which is a class-level list shared by every `VisConfig` instance.
This theorem evaluates the mutation at the failing input `styles = ["palette"]`. -/
theorem C8_styles_field_mutated :
    styles_after_render ["palette"] = ["palette", "uniform"] ∧
    styles_after_render ["palette"] ≠ ["palette"] ∧
    legend_margins_after [] 7 = [7] :=
  ⟨by decide, by decide, by decide⟩

theorem n_row_cols_zero (k : ℕ) (hk : 1 ≤ k) : n_row_cols 0 k = 0 := by
  unfold n_row_cols
  exact Nat.div_eq_of_lt (by omega)

theorem n_row_cols_succ (n k : ℕ) (hk : 1 ≤ k) (hn : 1 ≤ n) :
    n_row_cols n k = n_row_cols (n - k) k + 1 := by
  unfold n_row_cols
  rcases le_or_lt n k with h | h
  · have h1 : n - k = 0 := by omega
    rw [h1]
    have h2 : (0 + k - 1) / k = 0 := Nat.div_eq_of_lt (by omega)
    rw [h2]
    have h3 : n + k - 1 = (n - 1) + k := by omega
    rw [h3, Nat.add_div_right _ (by omega)]
    have h4 : (n - 1) / k = 0 := Nat.div_eq_of_lt (by omega)
    omega
  · have h5 : n + k - 1 = (n - k + k - 1) + k := by omega
    rw [h5, Nat.add_div_right _ (by omega)]

theorem chunk_loop_spec (k : ℕ) (hk : 1 ≤ k) :
    ∀ (fuel : ℕ) (l : List String), l.length ≤ fuel →
      (chunk_loop k fuel l).flatten = l ∧
      (chunk_loop k fuel l).length = n_row_cols l.length k ∧
      (∀ ch ∈ chunk_loop k fuel l, ch.length ≤ k ∧ ch ≠ []) ∧
      (∀ pre ch post, chunk_loop k fuel l = pre ++ ch :: post → post ≠ [] →
        ch.length = k) := by
  intro fuel
  induction fuel with
  | zero =>
    intro l hl
    have h0 : l = [] := List.length_eq_zero.mp (Nat.le_zero.mp hl)
    subst h0
    refine ⟨rfl, ?_, ?_, ?_⟩
    · simp only [List.length_nil, n_row_cols_zero k hk]; rfl
    · intro ch hch; simp [chunk_loop] at hch
    · intro pre ch post hsplit _
      exact absurd hsplit.symm (List.append_ne_nil_of_right_ne_nil pre (by simp))
  | succ fuel ih =>
    intro l hl
    rcases l with _ | ⟨x, xs⟩
    · refine ⟨rfl, ?_, ?_, ?_⟩
      · simp only [List.length_nil, n_row_cols_zero k hk]; rfl
      · intro ch hch; simp [chunk_loop] at hch
      · intro pre ch post hsplit _
        exact absurd hsplit.symm (List.append_ne_nil_of_right_ne_nil pre (by simp))
    · have hdrop : (List.drop k (x :: xs)).length ≤ fuel := by
        rw [List.length_drop]
        simp only [List.length_cons] at hl ⊢
        omega
      obtain ⟨ihf, ihl, ihc, ihg⟩ := ih (List.drop k (x :: xs)) hdrop
      have hck : chunk_loop k (fuel + 1) (x :: xs) =
          List.take k (x :: xs) :: chunk_loop k fuel (List.drop k (x :: xs)) := rfl
      refine ⟨?_, ?_, ?_, ?_⟩
      · rw [hck]
        simp only [List.flatten_cons, ihf]
        exact List.take_append_drop k (x :: xs)
      · rw [hck]
        have hkey := n_row_cols_succ (xs.length + 1) k hk (by omega)
        simp only [List.length_cons, ihl, List.length_drop]
        rw [hkey]
      · intro ch hch
        rw [hck] at hch
        rcases List.mem_cons.mp hch with rfl | hch2
        · refine ⟨by simpa using List.length_take_le k (x :: xs), ?_⟩
          rcases k with _ | k2
          · omega
          · simp [List.take_succ_cons]
        · exact ihc ch hch2
      · intro pre ch post hsplit hpost
        rw [hck] at hsplit
        rcases pre with _ | ⟨p, pre2⟩
        · simp only [List.nil_append, List.cons.injEq] at hsplit
          obtain ⟨hch2, hpost2⟩ := hsplit
          have hdlen : 1 ≤ (List.drop k (x :: xs)).length := by
            by_contra hno
            push_neg at hno
            have h0 : List.drop k (x :: xs) = [] := by
              cases hdk : List.drop k (x :: xs) with
              | nil => rfl
              | cons a b =>
                rw [hdk] at hno
                simp only [List.length_cons] at hno
                omega
            rw [h0] at hpost2
            exact hpost (by rw [← hpost2]; cases fuel <;> rfl)
          have hlt : k < (x :: xs).length := by
            rw [List.length_drop] at hdlen
            omega
          rw [← hch2, List.length_take]
          exact Nat.min_eq_left hlt.le
        · simp only [List.cons_append, List.cons.injEq] at hsplit
          exact ihg pre2 ch post hsplit.2 hpost

/-- Claim C9: for every legend with `n` entries and configured group length `k ≥ 1`,
`categories_by_rowcol` chunks the entries in order into `ceil(n / k)` strips of `k`
entries each except a possibly shorter final strip; in particular 12 categories with
`legend_rowcol_length = 5` produce exactly 3 strips of 5, 5 and 2 entries. -/
theorem C9_legend_chunking :
    (∀ (k : ℕ) (categories : List String), 1 ≤ k →
      (categories_by_rowcol k categories).flatten = categories ∧
      (categories_by_rowcol k categories).length = n_row_cols categories.length k ∧
      (∀ ch ∈ categories_by_rowcol k categories, ch.length ≤ k ∧ ch ≠ []) ∧
      (∀ pre ch post, categories_by_rowcol k categories = pre ++ ch :: post →
        post ≠ [] → ch.length = k)) ∧
    (categories_by_rowcol 5
        ["c1", "c2", "c3", "c4", "c5", "c6", "c7", "c8", "c9", "c10", "c11", "c12"]).map
      List.length = [5, 5, 2] := by
  constructor
  · intro k categories hk
    exact chunk_loop_spec k hk categories.length categories le_rfl
  · rfl

/-- Witness for C9: 12 categories with group length 5. -/
theorem C9_witness :
    1 ≤ 5 ∧
    ((categories_by_rowcol 5
        ["c1", "c2", "c3", "c4", "c5", "c6", "c7", "c8", "c9", "c10", "c11", "c12"]).flatten =
      ["c1", "c2", "c3", "c4", "c5", "c6", "c7", "c8", "c9", "c10", "c11", "c12"] ∧
    (categories_by_rowcol 5
        ["c1", "c2", "c3", "c4", "c5", "c6", "c7", "c8", "c9", "c10", "c11", "c12"]).length =
      n_row_cols
        (["c1", "c2", "c3", "c4", "c5", "c6", "c7", "c8", "c9", "c10", "c11", "c12"] :
          List String).length 5 ∧
    (∀ ch ∈ categories_by_rowcol 5
        ["c1", "c2", "c3", "c4", "c5", "c6", "c7", "c8", "c9", "c10", "c11", "c12"],
      ch.length ≤ 5 ∧ ch ≠ []) ∧
    (∀ pre ch post, categories_by_rowcol 5
        ["c1", "c2", "c3", "c4", "c5", "c6", "c7", "c8", "c9", "c10", "c11", "c12"] =
          pre ++ ch :: post → post ≠ [] → ch.length = 5)) :=
  ⟨by decide,
    C9_legend_chunking.1 5
      ["c1", "c2", "c3", "c4", "c5", "c6", "c7", "c8", "c9", "c10", "c11", "c12"] (by decide)⟩
theorem pydiv_ne (a b : ℚ) (hb : b ≠ 0) : pydiv a b = some (a / b) := by
  rw [pydiv, if_neg hb]

theorem column_stack_opt_eq (width height : ℤ) (total : ℚ) (hT : total ≠ 0) :
    ∀ (ul : ℤ × ℤ) (l : List Category),
      column_stack? width height total ul l = some (column_stack width height total ul l) := by
  intro ul l
  induction l generalizing ul with
  | nil => rfl
  | cons c rest ih =>
    rw [column_stack?, column_stack, pydiv_ne _ _ hT]
    simp only [Option.some_bind, ih]
    rfl

theorem proportion_keys_opt_eq (supSize : ℚ) (hsup : supSize ≠ 0) :
    ∀ l : List Category, proportion_keys? supSize l = some () := by
  intro l
  induction l with
  | nil => rfl
  | cons c rest ih =>
    rw [proportion_keys?, pydiv_ne _ _ hsup]
    simpa only [Option.some_bind] using ih

theorem compute_simple_column_grid_opt_eq (supSize : ℚ) (w h : ℤ) (cats : List Category)
    (ul : ℤ × ℤ) (hsup : supSize ≠ 0) (hT : catsSize cats ≠ 0) :
    compute_simple_column_grid? supSize w h cats ul =
      some (compute_simple_column_grid supSize w h cats ul) := by
  have hT2 : catsSize (sortDescBy (proportion_in_sup supSize) cats) ≠ 0 := by
    rwa [catsSize_sortDescBy]
  simp only [compute_simple_column_grid?, compute_simple_column_grid,
    proportion_keys_opt_eq supSize hsup, Option.some_bind]
  exact column_stack_opt_eq w h _ hT2 ul _

theorem grow_group_opt_eq (main cross : ℤ) (total c0size : ℚ) (hT : total ≠ 0) :
    ∀ (rest g : List Category) (req : ℤ) (fcx : ℚ),
      g ≠ [] → (∀ x ∈ g ++ rest, 0 < x.size) →
      grow_group? main cross total c0size g req fcx rest =
        some (grow_group main cross total c0size g req fcx rest) := by
  intro rest
  induction rest with
  | nil => intro g req fcx _ _; rfl
  | cons d rest ih =>
    intro g req fcx hg hpos
    simp only [grow_group?, grow_group]
    by_cases hc : (req : ℚ) < fcx
    · rw [if_pos hc, if_pos hc]
      have hg2 : (g ++ [d] : List Category) ≠ [] := by simp
      have hpos2 : ∀ x ∈ (g ++ [d]) ++ rest, 0 < x.size := by
        intro x hx
        apply hpos
        simpa only [List.append_assoc, List.singleton_append] using hx
      have hS2 : catsSize (g ++ [d]) ≠ 0 :=
        (catsSize_pos (fun x hx => hpos2 x (List.mem_append_left _ hx)) hg2).ne'
      rw [pydiv_ne _ _ hT, pydiv_ne _ _ hS2]
      exact ih (g ++ [d]) _ _ hg2 hpos2
    · rw [if_neg hc, if_neg hc]

theorem compute_grid_fuel_opt_width_major {supSize : ℚ} {fuel : ℕ} {W H : ℤ} {ul : ℤ × ℤ}
    {c d : Category} {rest : List Category} (hb : H < W)
    (gr : List Category × List Category × ℤ)
    (hgrow : grow_group? W H (catsSize (c :: d :: rest)) c.size [c]
      (pyInt ((W : ℚ) * c.size / catsSize (c :: d :: rest))) ((H : ℚ)) (d :: rest) = some gr)
    (hT : catsSize (c :: d :: rest) ≠ 0) :
    compute_grid_fuel? supSize (fuel + 1) W H ul (c :: d :: rest) = (do
      let strip ← compute_simple_column_grid? supSize gr.2.2 H gr.1 ul
      if gr.2.1.isEmpty then pure strip
      else do
        let recurse ← compute_grid_fuel? supSize fuel (W - gr.2.2) H
          (ul.1 + gr.2.2, ul.2) gr.2.1
        pure (strip ++ recurse)) := by
  rw [compute_grid_fuel?]
  rw [if_pos hb]
  rw [pydiv_ne _ _ hT]
  simp only [Option.bind_eq_bind, Option.some_bind]
  rw [hgrow]
  simp only [Option.some_bind]

theorem compute_grid_fuel_opt_height_major {supSize : ℚ} {fuel : ℕ} {W H : ℤ} {ul : ℤ × ℤ}
    {c d : Category} {rest : List Category} (hb : ¬ H < W)
    (gr : List Category × List Category × ℤ)
    (hgrow : grow_group? H W (catsSize (c :: d :: rest)) c.size [c]
      (pyInt ((H : ℚ) * c.size / catsSize (c :: d :: rest))) ((W : ℚ)) (d :: rest) = some gr)
    (hT : catsSize (c :: d :: rest) ≠ 0) :
    compute_grid_fuel? supSize (fuel + 1) W H ul (c :: d :: rest) = (do
      let strip ← compute_simple_column_grid? supSize W gr.2.2 gr.1 ul
      if gr.2.1.isEmpty then pure strip
      else do
        let recurse ← compute_grid_fuel? supSize fuel W (H - gr.2.2)
          (ul.1, gr.2.2 + ul.2) gr.2.1
        pure (strip ++ recurse)) := by
  rw [compute_grid_fuel?]
  rw [if_neg hb]
  rw [pydiv_ne _ _ hT]
  simp only [Option.bind_eq_bind, Option.some_bind]
  rw [hgrow]
  simp only [Option.some_bind]

theorem compute_grid_fuel_opt_eq (supSize : ℚ) (hsup : supSize ≠ 0) :
    ∀ (fuel : ℕ) (l : List Category) (W H : ℤ) (ul : ℤ × ℤ),
      l ≠ [] → l.length ≤ fuel → (∀ c ∈ l, 0 < c.size) →
      compute_grid_fuel? supSize fuel W H ul l =
        some (compute_grid_fuel supSize fuel W H ul l) := by
  intro fuel
  induction fuel with
  | zero =>
    intro l W H ul hne hlen _
    exact absurd (List.length_eq_zero.mp (Nat.le_zero.mp hlen)) hne
  | succ fuel ih =>
    intro l W H ul hne hlen hpos
    rcases l with _ | ⟨c, l2⟩
    · exact absurd rfl hne
    rcases l2 with _ | ⟨d, rest⟩
    · rfl
    have hT : 0 < catsSize (c :: d :: rest) := catsSize_pos hpos (by simp)
    by_cases hb : H < W
    · have hgrow := grow_group_opt_eq W H (catsSize (c :: d :: rest)) c.size hT.ne'
        (d :: rest) [c] (pyInt ((W : ℚ) * c.size / catsSize (c :: d :: rest))) ((H : ℚ))
        (by simp) (by intro x hx; exact hpos x (by simpa using hx))
      rw [compute_grid_fuel_opt_width_major hb _ hgrow hT.ne',
        @compute_grid_fuel_width_major supSize fuel W H ul c d rest hb _ rfl]
      set gr := grow_group W H (catsSize (c :: d :: rest)) c.size [c]
        (pyInt ((W : ℚ) * c.size / catsSize (c :: d :: rest))) ((H : ℚ)) (d :: rest) with hgr
      have happ : gr.1 ++ gr.2.1 = c :: d :: rest := by
        rw [hgr]
        simpa using grow_group_append W H (catsSize (c :: d :: rest)) c.size (d :: rest) [c] _ _
      obtain ⟨t, hpref⟩ : ∃ t, gr.1 = [c] ++ t := by
        rw [hgr]
        exact grow_group_prefix W H _ c.size (d :: rest) [c] _ _
      have hgne : gr.1 ≠ [] := by rw [hpref]; simp
      have hgpos : ∀ x ∈ gr.1, 0 < x.size := fun x hx =>
        hpos x (by rw [← happ]; exact List.mem_append_left _ hx)
      have hSg : catsSize gr.1 ≠ 0 := (catsSize_pos hgpos hgne).ne'
      rw [compute_simple_column_grid_opt_eq supSize gr.2.2 H gr.1 ul hsup hSg]
      simp only [Option.bind_eq_bind, Option.some_bind]
      by_cases hrem : gr.2.1.isEmpty = true
      · rw [if_pos hrem, if_pos hrem]
        rfl
      · rw [if_neg hrem, if_neg hrem]
        have hremne : gr.2.1 ≠ [] := by
          intro h
          exact hrem (by simp [h])
        have hrlen : gr.2.1.length ≤ fuel := by
          have hlen2 := congrArg List.length happ
          rw [List.length_append] at hlen2
          have hg1 : 1 ≤ gr.1.length := by rw [hpref]; simp
          simp only [List.length_cons] at hlen2 hlen
          omega
        have hrpos : ∀ x ∈ gr.2.1, 0 < x.size := fun x hx =>
          hpos x (by rw [← happ]; exact List.mem_append_right _ hx)
        rw [ih gr.2.1 (W - gr.2.2) H (ul.1 + gr.2.2, ul.2) hremne hrlen hrpos]
        rfl
    · have hgrow := grow_group_opt_eq H W (catsSize (c :: d :: rest)) c.size hT.ne'
        (d :: rest) [c] (pyInt ((H : ℚ) * c.size / catsSize (c :: d :: rest))) ((W : ℚ))
        (by simp) (by intro x hx; exact hpos x (by simpa using hx))
      rw [compute_grid_fuel_opt_height_major hb _ hgrow hT.ne',
        @compute_grid_fuel_height_major supSize fuel W H ul c d rest hb _ rfl]
      set gr := grow_group H W (catsSize (c :: d :: rest)) c.size [c]
        (pyInt ((H : ℚ) * c.size / catsSize (c :: d :: rest))) ((W : ℚ)) (d :: rest) with hgr
      have happ : gr.1 ++ gr.2.1 = c :: d :: rest := by
        rw [hgr]
        simpa using grow_group_append H W (catsSize (c :: d :: rest)) c.size (d :: rest) [c] _ _
      obtain ⟨t, hpref⟩ : ∃ t, gr.1 = [c] ++ t := by
        rw [hgr]
        exact grow_group_prefix H W _ c.size (d :: rest) [c] _ _
      have hgne : gr.1 ≠ [] := by rw [hpref]; simp
      have hgpos : ∀ x ∈ gr.1, 0 < x.size := fun x hx =>
        hpos x (by rw [← happ]; exact List.mem_append_left _ hx)
      have hSg : catsSize gr.1 ≠ 0 := (catsSize_pos hgpos hgne).ne'
      rw [compute_simple_column_grid_opt_eq supSize W gr.2.2 gr.1 ul hsup hSg]
      simp only [Option.bind_eq_bind, Option.some_bind]
      by_cases hrem : gr.2.1.isEmpty = true
      · rw [if_pos hrem, if_pos hrem]
        rfl
      · rw [if_neg hrem, if_neg hrem]
        have hremne : gr.2.1 ≠ [] := by
          intro h
          exact hrem (by simp [h])
        have hrlen : gr.2.1.length ≤ fuel := by
          have hlen2 := congrArg List.length happ
          rw [List.length_append] at hlen2
          have hg1 : 1 ≤ gr.1.length := by rw [hpref]; simp
          simp only [List.length_cons] at hlen2 hlen
          omega
        have hrpos : ∀ x ∈ gr.2.1, 0 < x.size := fun x hx =>
          hpos x (by rw [← happ]; exact List.mem_append_right _ hx)
        rw [ih gr.2.1 W (H - gr.2.2) (ul.1, gr.2.2 + ul.2) hremne hrlen hrpos]
        rfl

theorem compute_grid_fuel_opt_zero_total (supSize : ℚ) (fuel : ℕ) (W H : ℤ) (ul : ℤ × ℤ)
    (c d : Category) (rest : List Category) (h0 : catsSize (c :: d :: rest) = 0) :
    compute_grid_fuel? supSize (fuel + 1) W H ul (c :: d :: rest) = none := by
  simp [compute_grid_fuel?, h0, pydiv]

theorem compute_grid_fuel_fst_perm (supSize : ℚ) :
    ∀ (fuel : ℕ) (l : List Category) (W H : ℤ) (ul : ℤ × ℤ), l.length ≤ fuel →
      ((compute_grid_fuel supSize fuel W H ul l).map Prod.fst).Perm
        (l.map Category.name) := by
  intro fuel
  induction fuel with
  | zero =>
    intro l W H ul hlen
    rw [List.length_eq_zero.mp (Nat.le_zero.mp hlen)]
    exact List.Perm.refl _
  | succ fuel ih =>
    intro l W H ul hlen
    rcases l with _ | ⟨c, l2⟩
    · exact List.Perm.refl _
    rcases l2 with _ | ⟨d, rest⟩
    · exact List.Perm.refl _
    by_cases hb : H < W
    · rw [@compute_grid_fuel_width_major supSize fuel W H ul c d rest hb _ rfl]
      set gr := grow_group W H (catsSize (c :: d :: rest)) c.size [c]
        (pyInt ((W : ℚ) * c.size / catsSize (c :: d :: rest))) ((H : ℚ)) (d :: rest) with hgr
      have happ : gr.1 ++ gr.2.1 = c :: d :: rest := by
        rw [hgr]
        simpa using grow_group_append W H (catsSize (c :: d :: rest)) c.size (d :: rest) [c] _ _
      obtain ⟨t, hpref⟩ : ∃ t, gr.1 = [c] ++ t := by
        rw [hgr]
        exact grow_group_prefix W H _ c.size (d :: rest) [c] _ _
      have hstrip := compute_simple_column_grid_fst_perm supSize gr.2.2 H gr.1 ul
      have hmaps : gr.1.map Category.name ++ gr.2.1.map Category.name =
          (c :: d :: rest).map Category.name := by
        rw [← List.map_append, happ]
      by_cases hrem : gr.2.1.isEmpty = true
      · rw [if_pos hrem]
        have hrem2 : gr.2.1 = [] := by simpa using hrem
        rw [hrem2] at hmaps
        simp only [List.map_nil, List.append_nil] at hmaps
        exact hstrip.trans (hmaps ▸ List.Perm.refl _)
      · rw [if_neg hrem]
        have hrlen : gr.2.1.length ≤ fuel := by
          have hlen2 := congrArg List.length happ
          rw [List.length_append] at hlen2
          have hg1 : 1 ≤ gr.1.length := by rw [hpref]; simp
          simp only [List.length_cons] at hlen2 hlen
          omega
        have hrec := ih gr.2.1 (W - gr.2.2) H (ul.1 + gr.2.2, ul.2) hrlen
        rw [List.map_append]
        exact (hstrip.append hrec).trans (hmaps ▸ List.Perm.refl _)
    · rw [@compute_grid_fuel_height_major supSize fuel W H ul c d rest hb _ rfl]
      set gr := grow_group H W (catsSize (c :: d :: rest)) c.size [c]
        (pyInt ((H : ℚ) * c.size / catsSize (c :: d :: rest))) ((W : ℚ)) (d :: rest) with hgr
      have happ : gr.1 ++ gr.2.1 = c :: d :: rest := by
        rw [hgr]
        simpa using grow_group_append H W (catsSize (c :: d :: rest)) c.size (d :: rest) [c] _ _
      obtain ⟨t, hpref⟩ : ∃ t, gr.1 = [c] ++ t := by
        rw [hgr]
        exact grow_group_prefix H W _ c.size (d :: rest) [c] _ _
      have hstrip := compute_simple_column_grid_fst_perm supSize W gr.2.2 gr.1 ul
      have hmaps : gr.1.map Category.name ++ gr.2.1.map Category.name =
          (c :: d :: rest).map Category.name := by
        rw [← List.map_append, happ]
      by_cases hrem : gr.2.1.isEmpty = true
      · rw [if_pos hrem]
        have hrem2 : gr.2.1 = [] := by simpa using hrem
        rw [hrem2] at hmaps
        simp only [List.map_nil, List.append_nil] at hmaps
        exact hstrip.trans (hmaps ▸ List.Perm.refl _)
      · rw [if_neg hrem]
        have hrlen : gr.2.1.length ≤ fuel := by
          have hlen2 := congrArg List.length happ
          rw [List.length_append] at hlen2
          have hg1 : 1 ≤ gr.1.length := by rw [hpref]; simp
          simp only [List.length_cons] at hlen2 hlen
          omega
        have hrec := ih gr.2.1 W (H - gr.2.2) (ul.1, gr.2.2 + ul.2) hrlen
        rw [List.map_append]
        exact (hstrip.append hrec).trans (hmaps ▸ List.Perm.refl _)

/-- Claim C10 (amended): for every node with a non-empty list of subcategories of
strictly positive sizes whose own size satisfies the size invariant (it equals the
sum of its children's sizes), the parent's size is positive, the checked evaluation
of `compute_grid` reaches no division with a zero denominator (it succeeds and
agrees with the unchecked evaluation), and every subcategory receives exactly one
entry in the grids map (given the unique-sibling-names invariant); if instead the
node has at least two children and their sizes sum to zero, the first division is
reached with a zero denominator, so the checked evaluation returns `none`
(`ZeroDivisionError`). -/
theorem C10_compute_grid_division_safety :
    (∀ (c : Category) (W H : ℤ), c.subcategories ≠ [] →
      (∀ s ∈ c.subcategories, 0 < s.size) → c.size = catsSize c.subcategories →
      0 < c.size ∧
      c.compute_grid? W H = some (c.compute_grid W H) ∧
      ((c.compute_grid W H).map Prod.fst).Perm (c.subcategories.map Category.name) ∧
      ((c.subcategories.map Category.name).Nodup →
        ∀ s ∈ c.subcategories, ((c.compute_grid W H).map Prod.fst).count s.name = 1)) ∧
    (∀ (c : Category) (W H : ℤ), 2 ≤ c.subcategories.length →
      catsSize c.subcategories = 0 → c.compute_grid? W H = none) := by
  constructor
  · intro c W H hne hpos hinv
    have hcs : 0 < c.size := by
      rw [hinv]
      exact catsSize_pos hpos hne
    have hsne : c.subcategories_in_descending_size ≠ [] := by
      intro h
      have hl := congrArg List.length h
      rw [Category.subcategories_in_descending_size, length_sortDescBy] at hl
      exact hne (List.length_eq_zero.mp hl)
    have hspos : ∀ s ∈ c.subcategories_in_descending_size, 0 < s.size := by
      intro s hs
      rw [Category.subcategories_in_descending_size] at hs
      exact hpos s (mem_sortDescBy.mp hs)
    have heq : c.compute_grid? W H = some (c.compute_grid W H) :=
      compute_grid_fuel_opt_eq c.size hcs.ne' _ _ W H (0, 0) hsne le_rfl hspos
    have hperm0 := compute_grid_fuel_fst_perm c.size
      c.subcategories_in_descending_size.length c.subcategories_in_descending_size W H (0, 0)
      le_rfl
    have hperm : ((c.compute_grid W H).map Prod.fst).Perm
        (c.subcategories.map Category.name) := by
      refine hperm0.trans ?_
      rw [Category.subcategories_in_descending_size]
      exact (sortDescBy_perm Category.size c.subcategories).map _
    refine ⟨hcs, heq, hperm, ?_⟩
    intro hnodup s hs
    rw [hperm.count_eq]
    exact List.count_eq_one_of_mem hnodup (List.mem_map_of_mem Category.name hs)
  · intro c W H hlen2 hzero
    rcases hs : c.subcategories_in_descending_size with _ | ⟨a, l2⟩
    · exfalso
      have hl := congrArg List.length hs
      rw [Category.subcategories_in_descending_size, length_sortDescBy] at hl
      simp only [List.length_nil] at hl
      omega
    rcases l2 with _ | ⟨b, rest2⟩
    · exfalso
      have hl := congrArg List.length hs
      rw [Category.subcategories_in_descending_size, length_sortDescBy] at hl
      simp only [List.length_cons, List.length_nil] at hl
      omega
    have h0 : catsSize (a :: b :: rest2) = 0 := by
      rw [← hs, Category.subcategories_in_descending_size, catsSize_sortDescBy, hzero]
    show compute_grid_fuel? c.size c.subcategories_in_descending_size.length W H (0, 0)
      c.subcategories_in_descending_size = none
    rw [hs]
    simp only [List.length_cons]
    exact compute_grid_fuel_opt_zero_total c.size (rest2.length + 1) W H (0, 0) a b rest2 h0

def c10S : Category := ⟨"a", 0, none, [], [], false, false⟩

def c10P : Category := ⟨"p", 0, none, [], [c10S], false, false⟩

/-- Counterexample to C10 as stated: a node with a single child of size zero has
children whose sizes sum to zero, yet the layout reaches no division at all — the
terminal single-category case assigns the whole rectangle, so the checked evaluation
succeeds instead of hitting a zero denominator. -/
theorem C10_counterexample :
    catsSize c10P.subcategories = 0 ∧
    c10P.compute_grid? 3 2 = some [("a", ⟨0, 0, 3, 2⟩)] :=
  ⟨by with_unfolding_all decide, by with_unfolding_all decide⟩

def c10A : Category := ⟨"a", 2, none, [], [], false, false⟩

def c10B : Category := ⟨"b", 1, none, [], [], false, false⟩

def c10Q : Category := ⟨"q", 3, none, [], [c10A, c10B], false, false⟩

def c10Z : Category := ⟨"z", 0, none, [], [⟨"a", 0, none, [], [], false, false⟩,
  ⟨"b", 0, none, [], [], false, false⟩], false, false⟩

/-- Witness for C10: a well-formed 2/1 node evaluates safely with one grid entry per
child, and a two-child node whose sizes sum to zero makes the checked evaluation
signal the zero division. -/
theorem C10_witness :
    (c10Q.subcategories ≠ [] ∧ (∀ s ∈ c10Q.subcategories, 0 < s.size) ∧
      c10Q.size = catsSize c10Q.subcategories ∧ 2 ≤ c10Z.subcategories.length ∧
      catsSize c10Z.subcategories = 0) ∧
    ((0 : ℚ) < c10Q.size ∧
      c10Q.compute_grid? 4 3 = some (c10Q.compute_grid 4 3) ∧
      ((c10Q.compute_grid 4 3).map Prod.fst).Perm (c10Q.subcategories.map Category.name) ∧
      ((c10Q.subcategories.map Category.name).Nodup →
        ∀ s ∈ c10Q.subcategories, ((c10Q.compute_grid 4 3).map Prod.fst).count s.name = 1)) ∧
    c10Z.compute_grid? 4 3 = none :=
  ⟨⟨by simp [c10Q], by with_unfolding_all decide, by with_unfolding_all decide,
      by decide, by with_unfolding_all decide⟩,
    C10_compute_grid_division_safety.1 c10Q 4 3 (by simp [c10Q])
      (by with_unfolding_all decide) (by with_unfolding_all decide),
    C10_compute_grid_division_safety.2 c10Z 4 3 (by decide)
      (by with_unfolding_all decide)⟩

theorem column_stack_widths (width height : ℤ) (total : ℚ) :
    ∀ (ul : ℤ × ℤ) (l : List Category), ∀ e ∈ column_stack width height total ul l,
      e.2.width = width := by
  intro ul l
  induction l generalizing ul with
  | nil => intro e he; simp [column_stack] at he
  | cons c rest ih =>
    intro e he
    rw [column_stack] at he
    rcases List.mem_cons.mp he with rfl | he2
    · rfl
    · exact ih _ e he2

theorem compute_simple_column_grid_widths (supSize : ℚ) (w h : ℤ) (cats : List Category)
    (ul : ℤ × ℤ) : ∀ e ∈ compute_simple_column_grid supSize w h cats ul, e.2.width = w := by
  intro e he
  rw [compute_simple_column_grid_eq] at he
  exact column_stack_widths w h _ _ _ e he

/-- The entry point of the row-variant layout (see `compute_grid_rowvariant_fuel`);
a specification-side comparison definition, not source behaviour. -/
def Category.compute_grid_rowvariant (c : Category) (width height : ℤ) :
    List (String × Rect) :=
  compute_grid_rowvariant_fuel c.size c.subcategories_in_descending_size.length width height
    (0, 0) c.subcategories_in_descending_size

def c4A : Category := ⟨"a", 1, none, [], [], false, false⟩

def c4B : Category := ⟨"b", 1, none, [], [], false, false⟩

def c4P : Category := ⟨"p", 2, none, [], [c4A, c4B], false, false⟩

/-- Claim C4: both split branches of `compute_grid` lay their group out with the same
column-stacking routine `compute_simple_column_grid`: the height-major branch stacks
its group along the vertical axis spanning the strip's full horizontal extent (every
group rectangle is exactly `width` wide), exactly as the width-major branch does with
the same routine; `compute_simple_row_grid` is never invoked by `compute_grid`, and
substituting it into the height-major branch (the row variant) changes the output,
as two equal siblings in a 4 by 6 rectangle show. -/
theorem C4_both_branches_column_stack :
    (∀ (supSize : ℚ) (fuel : ℕ) (W H : ℤ) (ul : ℤ × ℤ) (c d : Category)
      (rest : List Category), ¬ H < W →
      ∀ gr, gr = grow_group H W (catsSize (c :: d :: rest)) c.size [c]
          (pyInt ((H : ℚ) * c.size / catsSize (c :: d :: rest))) ((W : ℚ)) (d :: rest) →
        compute_grid_fuel supSize (fuel + 1) W H ul (c :: d :: rest) =
          compute_simple_column_grid supSize W gr.2.2 gr.1 ul ++
            (if gr.2.1.isEmpty then []
             else compute_grid_fuel supSize fuel W (H - gr.2.2) (ul.1, gr.2.2 + ul.2) gr.2.1) ∧
        (∀ e ∈ compute_simple_column_grid supSize W gr.2.2 gr.1 ul, e.2.width = W)) ∧
    (∀ (supSize : ℚ) (fuel : ℕ) (W H : ℤ) (ul : ℤ × ℤ) (c d : Category)
      (rest : List Category), H < W →
      ∀ gr, gr = grow_group W H (catsSize (c :: d :: rest)) c.size [c]
          (pyInt ((W : ℚ) * c.size / catsSize (c :: d :: rest))) ((H : ℚ)) (d :: rest) →
        compute_grid_fuel supSize (fuel + 1) W H ul (c :: d :: rest) =
          compute_simple_column_grid supSize gr.2.2 H gr.1 ul ++
            (if gr.2.1.isEmpty then []
             else compute_grid_fuel supSize fuel (W - gr.2.2) H (ul.1 + gr.2.2, ul.2) gr.2.1)) ∧
    c4P.compute_grid 4 6 = [("a", ⟨0, 0, 4, 3⟩), ("b", ⟨0, 3, 4, 3⟩)] ∧
    c4P.compute_grid_rowvariant 4 6 = [("a", ⟨0, 0, 2, 6⟩), ("b", ⟨2, 0, 2, 6⟩)] ∧
    c4P.compute_grid 4 6 ≠ c4P.compute_grid_rowvariant 4 6 := by
  refine ⟨?_, ?_, ?_, ?_, ?_⟩
  · intro supSize fuel W H ul c d rest hb gr hgr
    constructor
    · rw [compute_grid_fuel_height_major hb gr hgr]
      by_cases hrem : gr.2.1.isEmpty = true
      · rw [if_pos hrem, if_pos hrem, List.append_nil]
      · rw [if_neg hrem, if_neg hrem]
    · intro e he
      exact compute_simple_column_grid_widths supSize W gr.2.2 gr.1 ul e he
  · intro supSize fuel W H ul c d rest hb gr hgr
    rw [compute_grid_fuel_width_major hb gr hgr]
    by_cases hrem : gr.2.1.isEmpty = true
    · rw [if_pos hrem, if_pos hrem, List.append_nil]
    · rw [if_neg hrem, if_neg hrem]
  · with_unfolding_all decide
  · with_unfolding_all decide
  · with_unfolding_all decide

def c4gr : List Category × List Category × ℤ :=
  grow_group 6 4 (catsSize [c4A, c4B]) c4A.size [c4A]
    (pyInt ((6 : ℚ) * c4A.size / catsSize [c4A, c4B])) ((4 : ℚ)) [c4B]

/-- Witness for C4: the height-major branch at two equal siblings in a 4 by 6
rectangle delegates to the column-stacking routine and every group rectangle spans
the full width 4. -/
theorem C4_witness :
    (¬ (6 : ℤ) < 4) ∧
    (compute_grid_fuel (2 : ℚ) (0 + 1) 4 6 (0, 0) (c4A :: c4B :: []) =
      compute_simple_column_grid 2 4 c4gr.2.2 c4gr.1 (0, 0) ++
        (if c4gr.2.1.isEmpty then []
         else compute_grid_fuel 2 0 4 (6 - c4gr.2.2) ((0 : ℤ), c4gr.2.2 + (0 : ℤ)) c4gr.2.1) ∧
      (∀ e ∈ compute_simple_column_grid 2 4 c4gr.2.2 c4gr.1 (0, 0), e.2.width = 4)) :=
  ⟨by decide, C4_both_branches_column_stack.1 2 0 4 6 (0, 0) c4A c4B [] (by decide) c4gr
    (by with_unfolding_all rfl)⟩
